import Mathlib

/-!
Shallow embedding of the geometry kernel in `src/src/sim/GeometryUtilities.cpp`
(`namespace sim`).  Coordinates, which the source stores in unit-tagged
wrappers around floating-point numbers (`Meters`, `MetersSquared`, `Cartesian`),
are modelled as exact rationals; every kernel operation is translated
function-by-function from the source.
-/

namespace sim

/-- Modelled from the spec: the `Cartesian` point type (spec §3) is an
immutable 2-D coordinate built from two length scalars.  Its class is not
among the repository's source files; only its use sites in
`GeometryUtilities.cpp` are. -/
@[ext]
structure Cartesian where
  x : ℚ
  y : ℚ
deriving DecidableEq

/-- Default point handed to out-of-range `List.getD` lookups below; the
translated loops only index in bounds, so it is never actually read. -/
def origin : Cartesian := ⟨0, 0⟩

/-- `crossProduct` (GeometryUtilities.cpp:10-20): the determinant of the
matrix whose rows are the vectors `A - Z` and `B - Z`. -/
def crossProduct (Z A B : Cartesian) : ℚ :=
  (A.x - Z.x) * (B.y - Z.y) - (A.y - Z.y) * (B.x - Z.x)

/-- A line segment, `std::pair<const Cartesian&, const Cartesian&>` in the
source. -/
abbrev Seg := Cartesian × Cartesian

/-- `linesIntersect` (GeometryUtilities.cpp:45-97): both products of the
side-test cross products must be nonpositive. -/
def linesIntersect (A B : Seg) : Bool :=
  let c1 := crossProduct A.1 B.1 A.2
  let c2 := crossProduct A.1 B.2 A.2
  let c3 := crossProduct B.1 A.1 B.2
  let c4 := crossProduct B.1 A.2 B.2
  decide (c1 * c2 ≤ 0 ∧ c3 * c4 ≤ 0)

/-- The point at parameter `t` along a segment (`t = 0` gives the first
endpoint, `t = 1` the second). -/
def segPoint (S : Seg) (t : ℚ) : Cartesian :=
  ⟨S.1.x + t * (S.2.x - S.1.x), S.1.y + t * (S.2.y - S.1.y)⟩

/-- The two segments share at least one common point. -/
def SegmentsMeet (A B : Seg) : Prop :=
  ∃ t u : ℚ, 0 ≤ t ∧ t ≤ 1 ∧ 0 ≤ u ∧ u ≤ 1 ∧ segPoint A t = segPoint B u

/-- All four endpoints of the two segments lie on one common line. -/
def EndpointsCollinear (A B : Seg) : Prop :=
  ∃ px py dx dy : ℚ, ∀ P ∈ [A.1, A.2, B.1, B.2],
    ∃ t : ℚ, P.x = px + t * dx ∧ P.y = py + t * dy

/-- `Z`, `A` and `B` lie on one line through `Z`. -/
def CollinearPts (Z A B : Cartesian) : Prop :=
  ∃ dx dy t u : ℚ,
    A.x - Z.x = t * dx ∧ A.y - Z.y = t * dy ∧
    B.x - Z.x = u * dx ∧ B.y - Z.y = u * dy

/-- `getIntersectionPoint` (GeometryUtilities.cpp:99-145).  The `ASSERT`
failure is modelled as `none`.  The source rotates the translated frame by
`(theCos, theSin) = (a2x, a2y)/distAB` with `distAB = sqrt(a2x²+a2y²)`;
here the rotated coordinates are carried scaled by `distAB` (this leaves
the ratio `b2y/(b2y - b1y)` unchanged, and the final multiplication of
`ABpos = posScaled/distAB` by `theCos = a2x/distAB` becomes a division by
`distSq = distAB²`), so every quantity stays rational and the returned
point is exactly the one the source computes. -/
def getIntersectionPoint (A B : Seg) : Option Cartesian :=
  if linesIntersect A B then
    let a1x := A.1.x
    let a1y := A.1.y
    let a2x := A.2.x - a1x
    let a2y := A.2.y - a1y
    let b1x := B.1.x - a1x
    let b1y := B.1.y - a1y
    let b2x := B.2.x - a1x
    let b2y := B.2.y - a1y
    let distSq := a2x * a2x + a2y * a2y
    let b1xR := b1x * a2x + b1y * a2y
    let b1yR := b1y * a2x - b1x * a2y
    let b2xR := b2x * a2x + b2y * a2y
    let b2yR := b2y * a2x - b2x * a2y
    let posScaled := b2xR + (b1xR - b2xR) * b2yR / (b2yR - b1yR)
    some ⟨a1x + posScaled * a2x / distSq, a1y + posScaled * a2y / distSq⟩
  else
    none

/-- Modelled from the spec: the `Polygon` type (spec §3) is an ordered
sequence of `Cartesian` points exposing its vertex sequence; its class is
not among the repository's source files. -/
structure Polygon where
  vertices : List Cartesian
deriving DecidableEq

/-- The loop over consecutive vertex pairs `(vertices.at(i),
vertices.at((i+1) % n))` shared by `polygonArea` and `centroid`: it
accumulates `f v_i v_{(i+1) % n}` over `i < n`. -/
def cyclicSum (f : Cartesian → Cartesian → ℚ) (vs : List Cartesian) : ℚ :=
  ∑ i ∈ Finset.range vs.length,
    f (vs.getD i origin) (vs.getD ((i + 1) % vs.length) origin)

/-- `polygonArea` (GeometryUtilities.cpp:147-160): the shoelace sum
(`area += x_i·y_j; area -= y_i·x_j`), halved, absolute value taken. -/
def polygonArea (p : Polygon) : ℚ :=
  |cyclicSum (fun a b => a.x * b.y - a.y * b.x) p.vertices / 2|

/-- `centroid` (GeometryUtilities.cpp:22-43): accumulates the weighted
shoelace terms, takes the absolute value of each accumulator, and divides
by `6 * polygonArea` (numerically; the `getMetersSquared` unit casts in
the source do not change the accumulated values). -/
def centroid (p : Polygon) : Cartesian :=
  let cx := |cyclicSum (fun a b => (a.x + b.x) * (a.x * b.y - b.x * a.y)) p.vertices|
  let cy := |cyclicSum (fun a b => (a.y + b.y) * (a.x * b.y - b.x * a.y)) p.vertices|
  ⟨cx / (polygonArea p * 6), cy / (polygonArea p * 6)⟩

/-- The loop body of `getLineSegments`: emits `(previousPoint,
currentPoint)` for each vertex in order, threading `previousPoint`. -/
def segsFrom (prev : Cartesian) : List Cartesian → List Seg
  | [] => []
  | c :: rest => (prev, c) :: segsFrom c rest

/-- `getLineSegments` (GeometryUtilities.cpp:162-174): `previousPoint`
starts at `vertices.back()`.  On an empty vertex list `vertices.back()` is
undefined behaviour in the source and the loop body never runs; the model
returns the empty list there. -/
def getLineSegments (p : Polygon) : List Seg :=
  match p.vertices with
  | [] => []
  | v :: vs => segsFrom ((v :: vs).getLast (List.cons_ne_nil v vs)) (v :: vs)

/-- The area-weighted centroid as the claim words it (C6):
`cx = (1/6A)·Σ(xi+xj)(xi·yj − xj·yi)` with `A` the signed shoelace area
`Σ(xi·yj − xj·yi)/2`, and symmetrically for `cy`.  This follows the spec's
formula and is compared against the source's `centroid`. -/
def centroidSpec (p : Polygon) : Cartesian :=
  ⟨cyclicSum (fun a b => (a.x + b.x) * (a.x * b.y - b.x * a.y)) p.vertices /
      (6 * (cyclicSum (fun a b => a.x * b.y - b.x * a.y) p.vertices / 2)),
   cyclicSum (fun a b => (a.y + b.y) * (a.x * b.y - b.x * a.y)) p.vertices /
      (6 * (cyclicSum (fun a b => a.x * b.y - b.x * a.y) p.vertices / 2))⟩

/-- Modelled from the spec: `Cartesian`'s ordering (spec §3) is
"lexicographic on (x, y)"; the comparison operator used by `std::sort` is
not among the repository's source files. -/
def lexLe (a b : Cartesian) : Prop :=
  a.x < b.x ∨ (a.x = b.x ∧ a.y ≤ b.y)

instance : DecidableRel lexLe := fun a b => by
  unfold lexLe; infer_instance

/-- `std::sort` over the lexicographic order.  The order is total and
antisymmetric, so the sorted permutation of the collected points is unique
and any correct sorting algorithm models `std::sort`; insertion sort is
used here. -/
def sortPoints (l : List Cartesian) : List Cartesian :=
  l.insertionSort lexLe

/-- The pop loop of the hull phases of `convexHull`
(GeometryUtilities.cpp:200-202 and 208-210): while the stack keeps at
least two points and the turn from the two topmost points to the new point
is not strictly counter-clockwise, pop.  The stack is kept top-first. -/
def popWhile (p : Cartesian) : List Cartesian → List Cartesian
  | b :: a :: rest =>
    if crossProduct a b p ≤ 0 then popWhile p (a :: rest) else b :: a :: rest
  | S => S

/-- One iteration of the hull loops of `convexHull`
(GeometryUtilities.cpp:199-212): pop, then push the new point
(`hull[k++] = points[i]`). -/
def chainStep (hull : List Cartesian) (p : Cartesian) : List Cartesian :=
  p :: popWhile p hull

/-- `convexHull` (GeometryUtilities.cpp:176-217), Andrew's monotone chain.
The lower hull runs over the sorted points with an empty stack; the upper
hull runs over the remaining points in reverse, seeded with the lower
hull's last point (the guard `k >= t` means pops never remove that seed,
which is exactly a stack keeping its bottom element).  The final array is
the lower stack in push order followed by the upper additions in push
order. -/
def convexHull (polygons : List Polygon) : Polygon :=
  let points := (polygons.map Polygon.vertices).flatten
  let sorted := sortPoints points
  match sorted with
  | [] => ⟨[]⟩
  | s :: ss =>
    let lower := (s :: ss).foldl chainStep []
    let upper := ((s :: ss).dropLast.reverse).foldl chainStep
      [(s :: ss).getLast (List.cons_ne_nil s ss)]
    ⟨lower.reverse ++ upper.reverse.tail⟩

/-- Strict lexicographic order on points. -/
def lexLt (a b : Cartesian) : Prop :=
  a.x < b.x ∨ (a.x = b.x ∧ a.y < b.y)

/-- Strict counter-clockwise turns along the stack (read top-first: every
three consecutive stack entries, from the deepest of the three to the
top, turn left). -/
def StackTurns : List Cartesian → Prop
  | p :: b :: a :: rest => 0 < crossProduct a b p ∧ StackTurns (b :: a :: rest)
  | _ => True

/-- The stack is strictly lexicographically decreasing from the top. -/
def StackDesc : List Cartesian → Prop
  | b :: a :: rest => lexLt a b ∧ StackDesc (a :: rest)
  | _ => True

/-- `q` is weakly to the left of every edge of the stack, each edge
directed from the deeper point to the shallower one. -/
def EdgesSafe (q : Cartesian) : List Cartesian → Prop
  | hi :: lo :: rest => 0 ≤ crossProduct lo hi q ∧ EdgesSafe q (lo :: rest)
  | _ => True

/-- The per-step invariant of the two hull loops: `S` is the stack (kept
top-first), `P` the points processed so far (most recent first). -/
structure ChainInv (S P : List Cartesian) : Prop where
  ne : S ≠ []
  sub : ∀ a ∈ S, a ∈ P
  turns : StackTurns S
  desc : StackDesc S ∨ (∃ x, S = [x, x] ∧ ∀ q ∈ P, q = x)
  tops : ∀ t, S.head? = some t → ∀ q ∈ P, lexLe q t
  bots : ∀ b, S.getLast? = some b → ∀ q ∈ P, lexLe b q
  edges : ∀ q ∈ P, EdgesSafe q S
  headP : S.head? = P.head?
  lastP : S.getLast? = P.getLast?

/-- Point reflection through the origin; it preserves all cross products
and reverses the lexicographic order, which turns the upper-hull loop into
a lower-hull loop. -/
def negP (v : Cartesian) : Cartesian := ⟨-v.x, -v.y⟩

/-- The stack is strictly lexicographically increasing from the top (used
for the upper-hull stack). -/
def StackAsc : List Cartesian → Prop
  | b :: a :: rest => lexLt b a ∧ StackAsc (a :: rest)
  | _ => True

/-- Consecutive triples of the vertex list turn strictly
counter-clockwise. -/
def ChainCCW : List Cartesian → Prop
  | a :: b :: c :: rest => 0 < crossProduct a b c ∧ ChainCCW (b :: c :: rest)
  | _ => True

/-- `q` is weakly to the left of every consecutive directed edge of the
vertex list. -/
def ChainLeft (q : Cartesian) : List Cartesian → Prop
  | a :: b :: rest => 0 ≤ crossProduct a b q ∧ ChainLeft q (b :: rest)
  | _ => True

/-- Along the vertex list, a point on the lines of both edges at a vertex
must be that vertex (so each listed vertex is an extreme point). -/
def ChainUniq (q : Cartesian) : List Cartesian → Prop
  | a :: b :: c :: rest =>
    (crossProduct a b q = 0 → crossProduct b c q = 0 → q = b) ∧
      ChainUniq q (b :: c :: rest)
  | _ => True

/-- C7: `crossProduct` is antisymmetric in its last two arguments, and is
zero whenever the three points are collinear. -/
theorem crossProduct_antisymm_and_collinear (Z A B : Cartesian) :
    crossProduct Z A B = -crossProduct Z B A ∧
    (CollinearPts Z A B → crossProduct Z A B = 0) := by
  constructor
  · simp only [crossProduct]; ring
  · rintro ⟨dx, dy, t, u, hax, hay, hbx, hby⟩
    simp only [crossProduct]
    rw [hax, hay, hbx, hby]
    ring

/-- Witness for C7 at the concrete collinear points (0,0), (1,0), (2,0). -/
theorem crossProduct_antisymm_and_collinear_witness :
    crossProduct ⟨0,0⟩ ⟨1,0⟩ ⟨2,0⟩ = -crossProduct ⟨0,0⟩ ⟨2,0⟩ ⟨1,0⟩ ∧
    crossProduct ⟨0,0⟩ ⟨1,0⟩ ⟨2,0⟩ = 0 :=
  ⟨(crossProduct_antisymm_and_collinear ⟨0,0⟩ ⟨1,0⟩ ⟨2,0⟩).1,
   (crossProduct_antisymm_and_collinear ⟨0,0⟩ ⟨1,0⟩ ⟨2,0⟩).2
     ⟨1, 0, 1, 2, by norm_num⟩⟩

/-- A product is nonpositive when some convex combination of its factors
vanishes. -/
lemma mul_nonpos_of_convex_zero {a b u : ℚ} (h0 : 0 ≤ u) (h1 : u ≤ 1)
    (h : (1 - u) * a + u * b = 0) : a * b ≤ 0 := by
  have key : a * b + (1 - u) * a ^ 2 + u * b ^ 2 = 0 := by
    linear_combination (a + b) * h
  have hu : 0 ≤ u * b ^ 2 := mul_nonneg h0 (sq_nonneg b)
  have hv : 0 ≤ (1 - u) * a ^ 2 := mul_nonneg (by linarith) (sq_nonneg a)
  linarith

/-- The side test against a fixed line is affine along a segment. -/
lemma crossProduct_segPoint (Z W : Cartesian) (B : Seg) (u : ℚ) :
    crossProduct Z (segPoint B u) W =
      (1 - u) * crossProduct Z B.1 W + u * crossProduct Z B.2 W := by
  simp only [crossProduct, segPoint]; ring

/-- A point of a segment is on the segment's own line. -/
lemma crossProduct_segPoint_self (A : Seg) (t : ℚ) :
    crossProduct A.1 (segPoint A t) A.2 = 0 := by
  simp only [crossProduct, segPoint]; ring

/-- Completeness half of the test: segments that share a point pass it. -/
lemma linesIntersect_of_meet {A B : Seg} (h : SegmentsMeet A B) :
    linesIntersect A B = true := by
  obtain ⟨t, u, ht0, ht1, hu0, hu1, heq⟩ := h
  simp only [linesIntersect, decide_eq_true_eq]
  constructor
  · apply mul_nonpos_of_convex_zero hu0 hu1
    rw [← crossProduct_segPoint A.1 A.2 B u, ← heq]
    exact crossProduct_segPoint_self A t
  · apply mul_nonpos_of_convex_zero ht0 ht1
    rw [← crossProduct_segPoint B.1 B.2 A t, heq]
    exact crossProduct_segPoint_self B u

/-- Collinear configurations always pass the test: all four cross products
vanish. -/
lemma linesIntersect_of_collinear {A B : Seg} (h : EndpointsCollinear A B) :
    linesIntersect A B = true := by
  obtain ⟨px, py, dx, dy, hmem⟩ := h
  obtain ⟨t1, h1x, h1y⟩ := hmem A.1 (by simp)
  obtain ⟨t2, h2x, h2y⟩ := hmem A.2 (by simp)
  obtain ⟨t3, h3x, h3y⟩ := hmem B.1 (by simp)
  obtain ⟨t4, h4x, h4y⟩ := hmem B.2 (by simp)
  simp only [linesIntersect, decide_eq_true_eq, crossProduct]
  constructor <;>
    (rw [h1x, h1y, h2x, h2y, h3x, h3y, h4x, h4y]; apply le_of_eq; ring)

/-- Existence of the intersection parameters when the opposite-side
products are nonpositive and the segments are not parallel. -/
lemma exists_param_of_products (c1 c2 c3 c4 : ℚ) (key : c1 - c2 = c4 - c3)
    (h12 : c1 * c2 ≤ 0) (h34 : c3 * c4 ≤ 0) (hne : c1 ≠ c2) :
    ∃ t u : ℚ, 0 ≤ t ∧ t ≤ 1 ∧ 0 ≤ u ∧ u ≤ 1 ∧
      t * (c1 - c2) = -c3 ∧ u * (c1 - c2) = c1 := by
  rcases (sub_ne_zero.mpr hne).lt_or_lt with hlt | hgt
  · have h1 : c1 ≤ 0 := by nlinarith [sq_nonneg c1]
    have h2 : 0 ≤ c2 := by nlinarith [sq_nonneg c2]
    have h3 : 0 ≤ c3 := by nlinarith [sq_nonneg c3]
    have h4 : c4 ≤ 0 := by nlinarith [sq_nonneg c4]
    refine ⟨-c3 / (c1 - c2), c1 / (c1 - c2), ?_, ?_, ?_, ?_,
      div_mul_cancel₀ _ (ne_of_lt hlt), div_mul_cancel₀ _ (ne_of_lt hlt)⟩
    · rw [le_div_iff_of_neg hlt]; linarith
    · rw [div_le_iff_of_neg hlt]; linarith
    · rw [le_div_iff_of_neg hlt]; linarith
    · rw [div_le_iff_of_neg hlt]; linarith
  · have h1 : 0 ≤ c1 := by nlinarith [sq_nonneg c1]
    have h2 : c2 ≤ 0 := by nlinarith [sq_nonneg c2]
    have h3 : c3 ≤ 0 := by nlinarith [sq_nonneg c3]
    have h4 : 0 ≤ c4 := by nlinarith [sq_nonneg c4]
    refine ⟨-c3 / (c1 - c2), c1 / (c1 - c2), ?_, ?_, ?_, ?_,
      div_mul_cancel₀ _ (ne_of_gt hgt), div_mul_cancel₀ _ (ne_of_gt hgt)⟩
    · exact div_nonneg (by linarith) (le_of_lt hgt)
    · rw [div_le_one hgt]; linarith
    · exact div_nonneg h1 (le_of_lt hgt)
    · rw [div_le_one hgt]; linarith

/-- Soundness half of the test in the non-parallel case: the segments share
the classical intersection point. -/
lemma segmentsMeet_of_cross {A B : Seg}
    (h12 : crossProduct A.1 B.1 A.2 * crossProduct A.1 B.2 A.2 ≤ 0)
    (h34 : crossProduct B.1 A.1 B.2 * crossProduct B.1 A.2 B.2 ≤ 0)
    (hne : crossProduct A.1 B.1 A.2 ≠ crossProduct A.1 B.2 A.2) :
    SegmentsMeet A B := by
  have key : crossProduct A.1 B.1 A.2 - crossProduct A.1 B.2 A.2
      = crossProduct B.1 A.2 B.2 - crossProduct B.1 A.1 B.2 := by
    simp only [crossProduct]; ring
  obtain ⟨t, u, ht0, ht1, hu0, hu1, ht, hu⟩ :=
    exists_param_of_products _ _ _ _ key h12 h34 hne
  refine ⟨t, u, ht0, ht1, hu0, hu1, ?_⟩
  have hd : crossProduct A.1 B.1 A.2 - crossProduct A.1 B.2 A.2 ≠ 0 :=
    sub_ne_zero.mpr hne
  obtain ⟨⟨a1x, a1y⟩, ⟨a2x, a2y⟩⟩ := A
  obtain ⟨⟨b1x, b1y⟩, ⟨b2x, b2y⟩⟩ := B
  simp only [crossProduct] at ht hu hd
  ext
  · simp only [segPoint]
    have h9 : (a1x + t * (a2x - a1x) - (b1x + u * (b2x - b1x))) *
        ((b1x - a1x) * (a2y - a1y) - (b1y - a1y) * (a2x - a1x) -
          ((b2x - a1x) * (a2y - a1y) - (b2y - a1y) * (a2x - a1x))) = 0 := by
      linear_combination (a2x - a1x) * ht - (b2x - b1x) * hu
    rcases mul_eq_zero.mp h9 with h | h
    · linarith
    · exact absurd h hd
  · simp only [segPoint]
    have h9 : (a1y + t * (a2y - a1y) - (b1y + u * (b2y - b1y))) *
        ((b1x - a1x) * (a2y - a1y) - (b1y - a1y) * (a2x - a1x) -
          ((b2x - a1x) * (a2y - a1y) - (b2y - a1y) * (a2x - a1x))) = 0 := by
      linear_combination (a2y - a1y) * ht - (b2y - b1y) * hu
    rcases mul_eq_zero.mp h9 with h | h
    · linarith
    · exact absurd h hd

/-- A vanishing side test puts the point on the line of the two others. -/
lemma exists_t_of_cross_eq_zero (P Q R : Cartesian) (hQR : Q ≠ R)
    (h : (P.x - Q.x) * (R.y - Q.y) - (P.y - Q.y) * (R.x - Q.x) = 0) :
    ∃ t : ℚ, P.x = Q.x + t * (R.x - Q.x) ∧ P.y = Q.y + t * (R.y - Q.y) := by
  by_cases hx : R.x - Q.x = 0
  · have hy : R.y - Q.y ≠ 0 := by
      intro hy
      exact hQR (by ext <;> [linarith [sub_eq_zero.mp hx]; linarith [sub_eq_zero.mp hy]])
    refine ⟨(P.y - Q.y) / (R.y - Q.y), ?_, ?_⟩
    · rw [hx]
      have hPx : (P.x - Q.x) * (R.y - Q.y) = 0 := by linear_combination h + (P.y - Q.y) * hx
      rcases mul_eq_zero.mp hPx with h' | h'
      · linarith
      · exact absurd h' hy
    · field_simp
  · refine ⟨(P.x - Q.x) / (R.x - Q.x), ?_, ?_⟩
    · field_simp
    · field_simp
      linear_combination -h

/-- When all four side tests vanish, the four endpoints are collinear. -/
lemma endpointsCollinear_of_crosses {A B : Seg}
    (h1 : crossProduct A.1 B.1 A.2 = 0) (h3 : crossProduct B.1 A.1 B.2 = 0)
    (h2 : crossProduct A.1 B.2 A.2 = 0) :
    EndpointsCollinear A B := by
  simp only [crossProduct] at h1 h2 h3
  by_cases hA : A.1 = A.2
  · by_cases hB : B.1 = B.2
    · refine ⟨A.1.x, A.1.y, B.1.x - A.1.x, B.1.y - A.1.y, ?_⟩
      intro P hP
      simp only [List.mem_cons, List.not_mem_nil, or_false] at hP
      rcases hP with h | h | h | h <;> subst h
      · exact ⟨0, by ring, by ring⟩
      · exact ⟨0, by rw [← hA]; ring, by rw [← hA]; ring⟩
      · exact ⟨1, by ring, by ring⟩
      · exact ⟨1, by rw [← hB]; ring, by rw [← hB]; ring⟩
    · refine ⟨B.1.x, B.1.y, B.2.x - B.1.x, B.2.y - B.1.y, ?_⟩
      intro P hP
      simp only [List.mem_cons, List.not_mem_nil, or_false] at hP
      have hA1 := exists_t_of_cross_eq_zero A.1 B.1 B.2 hB (by linear_combination h3)
      rcases hP with h | h | h | h <;> subst h
      · exact hA1
      · obtain ⟨t, htx, hty⟩ := hA1
        exact ⟨t, by rw [← hA]; exact htx, by rw [← hA]; exact hty⟩
      · exact ⟨0, by ring, by ring⟩
      · exact ⟨1, by ring, by ring⟩
  · refine ⟨A.1.x, A.1.y, A.2.x - A.1.x, A.2.y - A.1.y, ?_⟩
    intro P hP
    simp only [List.mem_cons, List.not_mem_nil, or_false] at hP
    rcases hP with h | h | h | h <;> subst h
    · exact ⟨0, by ring, by ring⟩
    · exact ⟨1, by ring, by ring⟩
    · exact exists_t_of_cross_eq_zero B.1 A.1 A.2 hA h1
    · exact exists_t_of_cross_eq_zero B.2 A.1 A.2 hA h2

/-- C1 (amended): the test passes exactly when the segments share a point
or all four endpoints are collinear.  In particular collinear-but-disjoint
segments pass the test (all cross products vanish), they are not rejected
as the claim states. -/
theorem linesIntersect_iff_meet_or_collinear (A B : Seg) :
    linesIntersect A B = true ↔ SegmentsMeet A B ∨ EndpointsCollinear A B := by
  constructor
  · intro h
    simp only [linesIntersect, decide_eq_true_eq] at h
    obtain ⟨h12, h34⟩ := h
    by_cases hne : crossProduct A.1 B.1 A.2 = crossProduct A.1 B.2 A.2
    · have key : crossProduct A.1 B.1 A.2 - crossProduct A.1 B.2 A.2
          = crossProduct B.1 A.2 B.2 - crossProduct B.1 A.1 B.2 := by
        simp only [crossProduct]; ring
      have hz1 : crossProduct A.1 B.1 A.2 = 0 := by
        have h' : crossProduct A.1 B.1 A.2 * crossProduct A.1 B.1 A.2 ≤ 0 := by
          rw [hne] at h12 ⊢; exact h12
        exact mul_self_eq_zero.mp (le_antisymm h' (mul_self_nonneg _))
      have hz2 : crossProduct A.1 B.2 A.2 = 0 := by rw [← hne]; exact hz1
      have hne34 : crossProduct B.1 A.1 B.2 = crossProduct B.1 A.2 B.2 := by
        rw [hne] at key; linarith [key]
      have hz3 : crossProduct B.1 A.1 B.2 = 0 := by
        have h' : crossProduct B.1 A.1 B.2 * crossProduct B.1 A.1 B.2 ≤ 0 := by
          rw [hne34] at h34 ⊢; exact h34
        exact mul_self_eq_zero.mp (le_antisymm h' (mul_self_nonneg _))
      exact Or.inr (endpointsCollinear_of_crosses hz1 hz3 hz2)
    · exact Or.inl (segmentsMeet_of_cross h12 h34 hne)
  · rintro (hm | hcol)
    · exact linesIntersect_of_meet hm
    · exact linesIntersect_of_collinear hcol

/-- C1 counterexample: the collinear disjoint segments (0,0)-(1,0) and
(2,0)-(3,0) pass the test even though they share no point, contradicting
the claim that collinear-but-disjoint segments return false. -/
theorem linesIntersect_collinear_disjoint_cex :
    linesIntersect (⟨0,0⟩, ⟨1,0⟩) (⟨2,0⟩, ⟨3,0⟩) = true ∧
    EndpointsCollinear (⟨0,0⟩, ⟨1,0⟩) (⟨2,0⟩, ⟨3,0⟩) ∧
    ¬ SegmentsMeet (⟨0,0⟩, ⟨1,0⟩) (⟨2,0⟩, ⟨3,0⟩) := by
  refine ⟨by norm_num [linesIntersect, crossProduct], ?_, ?_⟩
  · refine ⟨0, 0, 1, 0, ?_⟩
    intro P hP
    simp only [List.mem_cons, List.not_mem_nil, or_false] at hP
    rcases hP with h | h | h | h <;> subst h
    · exact ⟨0, by norm_num, by norm_num⟩
    · exact ⟨1, by norm_num, by norm_num⟩
    · exact ⟨2, by norm_num, by norm_num⟩
    · exact ⟨3, by norm_num, by norm_num⟩
  · rintro ⟨t, u, ht0, ht1, hu0, hu1, heq⟩
    have hx := congrArg Cartesian.x heq
    simp only [segPoint] at hx
    norm_num at hx
    linarith

/-- C10: `linesIntersect` is symmetric in its two segment arguments. -/
theorem linesIntersect_symm (A B : Seg) :
    linesIntersect A B = linesIntersect B A := by
  simp only [linesIntersect]
  exact decide_eq_decide.mpr and_comm

/-- C3: `getIntersectionPoint` reports the precondition failure exactly
when `linesIntersect` is false, and returns a point exactly when it is
true. -/
theorem getIntersectionPoint_fails_iff (A B : Seg) :
    (getIntersectionPoint A B = none ↔ linesIntersect A B = false) ∧
    (getIntersectionPoint A B).isSome = linesIntersect A B := by
  by_cases h : linesIntersect A B = true
  · simp [getIntersectionPoint, h]
  · simp only [Bool.not_eq_true] at h
    simp [getIntersectionPoint, h]

/-- C8: the diagonals of the unit square intersect at (1/2, 1/2). -/
theorem diagonals_intersection_concrete :
    linesIntersect (⟨0,0⟩, ⟨1,1⟩) (⟨0,1⟩, ⟨1,0⟩) = true ∧
    getIntersectionPoint (⟨0,0⟩, ⟨1,1⟩) (⟨0,1⟩, ⟨1,0⟩) = some ⟨1/2, 1/2⟩ := by
  constructor
  · norm_num [linesIntersect, crossProduct]
  · norm_num [getIntersectionPoint, linesIntersect, crossProduct]

lemma segsFrom_eq_zip (prev : Cartesian) (l : List Cartesian) :
    segsFrom prev l = (prev :: l.dropLast).zip l := by
  induction l generalizing prev with
  | nil => rfl
  | cons c rest ih =>
    cases rest with
    | nil => rfl
    | cons d rest2 =>
      have hstep : segsFrom prev (c :: d :: rest2)
          = (prev, c) :: segsFrom c (d :: rest2) := rfl
      rw [hstep, ih c, List.dropLast_cons₂]
      simp only [List.zip_cons_cons]

/-- C2 (amended): on an n-vertex polygon (n ≥ 3) `getLineSegments` returns
exactly n segments, and segment i connects vertex (i+n−1) mod n to vertex
i; hence the wrap-around segment from vertex n−1 to vertex 0 is the first
returned segment, not the last, and segment i (for i ≥ 1) connects vertex
i−1 to vertex i. -/
theorem getLineSegments_spec (p : Polygon) (h3 : 3 ≤ p.vertices.length) :
    (getLineSegments p).length = p.vertices.length ∧
    ∀ i, i < p.vertices.length →
      (getLineSegments p).getD i (origin, origin) =
        (p.vertices.getD ((i + p.vertices.length - 1) % p.vertices.length) origin,
         p.vertices.getD i origin) := by
  obtain ⟨vs⟩ := p
  simp only at h3 ⊢
  obtain ⟨v, tl, rfl⟩ : ∃ v tl, vs = v :: tl := by
    cases vs with
    | nil => simp at h3
    | cons v tl => exact ⟨v, tl, rfl⟩
  have hgl : getLineSegments ⟨v :: tl⟩ =
      ((v :: tl).getLast (List.cons_ne_nil v tl) :: (v :: tl).dropLast).zip
        (v :: tl) := by
    simp only [getLineSegments]
    exact segsFrom_eq_zip _ _
  have hlen1 : ((v :: tl).getLast (List.cons_ne_nil v tl) ::
      (v :: tl).dropLast).length = (v :: tl).length := by
    simp [List.length_dropLast]
  have hlen : (getLineSegments ⟨v :: tl⟩).length = (v :: tl).length := by
    rw [hgl, List.length_zip, hlen1, min_self]
  refine ⟨hlen, ?_⟩
  intro i hi
  have hiz : i < ((((v :: tl).getLast (List.cons_ne_nil v tl) ::
      (v :: tl).dropLast)).zip (v :: tl)).length := by
    rw [← hgl, hlen]; exact hi
  rw [hgl, List.getD_eq_getElem _ _ hiz, List.getElem_zip,
    List.getD_eq_getElem _ _ hi]
  rcases Nat.eq_zero_or_pos i with hz | hpos
  · subst hz
    have hmod : (0 + (v :: tl).length - 1) % (v :: tl).length
        = tl.length := by
      have e1 : 0 + (v :: tl).length - 1 = tl.length := by
        simp only [List.length_cons]; omega
      rw [e1]
      exact Nat.mod_eq_of_lt (by simp only [List.length_cons]; omega)
    rw [hmod]
    have hb : tl.length < (v :: tl).length := by
      simp only [List.length_cons]; omega
    rw [List.getD_eq_getElem _ _ hb, List.getElem_cons_zero,
      List.getLast_eq_getElem]
    simp only [List.length_cons, Nat.add_sub_cancel]
  · obtain ⟨j, rfl⟩ : ∃ j, i = j + 1 := ⟨i - 1, by omega⟩
    have hjlt : j + 1 < (v :: tl).length := hi
    simp only [List.length_cons] at hjlt
    have hmod : (j + 1 + (v :: tl).length - 1) % (v :: tl).length = j := by
      simp only [List.length_cons]
      have e2 : j + 1 + (tl.length + 1) - 1 = j + (tl.length + 1) := by omega
      rw [e2, Nat.add_mod_right]
      exact Nat.mod_eq_of_lt (by omega)
    rw [hmod]
    have hj : j < ((v :: tl).dropLast).length := by
      rw [List.length_dropLast]
      simp only [List.length_cons]
      omega
    have hb : j < (v :: tl).length := by
      simp only [List.length_cons]; omega
    rw [List.getD_eq_getElem _ _ hb, List.getElem_cons_succ,
      List.getElem_dropLast]

/-- Witness for C2 on the triangle (0,0),(1,0),(0,1): three segments, the
first of which is the wrap-around segment from vertex 2 to vertex 0. -/
theorem getLineSegments_spec_witness :
    (getLineSegments ⟨[⟨0,0⟩, ⟨1,0⟩, ⟨0,1⟩]⟩).length = 3 ∧
    (getLineSegments ⟨[⟨0,0⟩, ⟨1,0⟩, ⟨0,1⟩]⟩).getD 0 (origin, origin) =
      (⟨0,1⟩, ⟨0,0⟩) := by
  refine ⟨(getLineSegments_spec ⟨[⟨0,0⟩, ⟨1,0⟩, ⟨0,1⟩]⟩ (by norm_num)).1, ?_⟩
  have h := (getLineSegments_spec ⟨[⟨0,0⟩, ⟨1,0⟩, ⟨0,1⟩]⟩ (by norm_num)).2 0
    (by norm_num)
  simpa using h

/-- C2 counterexample: on the triangle (0,0),(1,0),(0,1) the wrap-around
segment (v2, v0) comes first, and the last returned segment is (v1, v2),
not the claimed wrap-around from vertex n−1 to vertex 0. -/
theorem getLineSegments_cex :
    getLineSegments ⟨[⟨0,0⟩, ⟨1,0⟩, ⟨0,1⟩]⟩ =
      [(⟨0,1⟩, ⟨0,0⟩), (⟨0,0⟩, ⟨1,0⟩), (⟨1,0⟩, ⟨0,1⟩)] ∧
    (getLineSegments ⟨[⟨0,0⟩, ⟨1,0⟩, ⟨0,1⟩]⟩).getLast? ≠
      some (⟨0,1⟩, ⟨0,0⟩) := by
  constructor
  · rfl
  · intro h
    rw [show getLineSegments ⟨[⟨0,0⟩, ⟨1,0⟩, ⟨0,1⟩]⟩ =
      [(⟨0,1⟩, ⟨0,0⟩), (⟨0,0⟩, ⟨1,0⟩), (⟨1,0⟩, ⟨0,1⟩)] from rfl] at h
    simp only [List.getLast?] at h
    have := Option.some.inj h
    have hx := congrArg (fun s => s.1.x) this
    norm_num at hx

/-- Summing any function over `range n` after the cyclic index shift
`i ↦ (i+1) % n` does not change the sum. -/
lemma sum_range_mod_shift (g : ℕ → ℚ) (n : ℕ) (hn : 0 < n) :
    ∑ i ∈ Finset.range n, g ((i + 1) % n) = ∑ i ∈ Finset.range n, g i := by
  refine Finset.sum_nbij' (fun i => (i + 1) % n) (fun j => (j + n - 1) % n)
    ?_ ?_ ?_ ?_ ?_
  · intro a _
    exact Finset.mem_range.mpr (Nat.mod_lt _ hn)
  · intro a _
    exact Finset.mem_range.mpr (Nat.mod_lt _ hn)
  · intro a ha
    rw [Finset.mem_range] at ha
    show ((a + 1) % n + n - 1) % n = a
    have e1 : (a + 1) % n + n - 1 = (a + 1) % n + (n - 1) := by omega
    rw [e1, Nat.mod_add_mod]
    have e2 : a + 1 + (n - 1) = a + n := by omega
    rw [e2, Nat.add_mod_right]
    exact Nat.mod_eq_of_lt ha
  · intro a ha
    rw [Finset.mem_range] at ha
    show ((a + n - 1) % n + 1) % n = a
    rw [Nat.mod_add_mod]
    have e2 : a + n - 1 + 1 = a + n := by omega
    rw [e2, Nat.add_mod_right]
    exact Nat.mod_eq_of_lt ha
  · intro a _
    rfl

/-- Summing any function over `range n` after the cyclic index shift
`i ↦ (i+n-1) % n` does not change the sum. -/
lemma sum_range_mod_shift_pred (g : ℕ → ℚ) (n : ℕ) (hn : 0 < n) :
    ∑ i ∈ Finset.range n, g ((i + n - 1) % n) = ∑ i ∈ Finset.range n, g i := by
  refine Finset.sum_nbij' (fun i => (i + n - 1) % n) (fun j => (j + 1) % n)
    ?_ ?_ ?_ ?_ ?_
  · intro a _
    exact Finset.mem_range.mpr (Nat.mod_lt _ hn)
  · intro a _
    exact Finset.mem_range.mpr (Nat.mod_lt _ hn)
  · intro a ha
    rw [Finset.mem_range] at ha
    show ((a + n - 1) % n + 1) % n = a
    rw [Nat.mod_add_mod]
    have e2 : a + n - 1 + 1 = a + n := by omega
    rw [e2, Nat.add_mod_right]
    exact Nat.mod_eq_of_lt ha
  · intro a ha
    rw [Finset.mem_range] at ha
    show ((a + 1) % n + n - 1) % n = a
    have e1 : (a + 1) % n + n - 1 = (a + 1) % n + (n - 1) := by omega
    rw [e1, Nat.mod_add_mod]
    have e2 : a + 1 + (n - 1) = a + n := by omega
    rw [e2, Nat.add_mod_right]
    exact Nat.mod_eq_of_lt ha
  · intro a _
    rfl

lemma getD_rotate_one (vs : List Cartesian) (j : ℕ) (hj : j < vs.length) :
    (vs.rotate 1).getD j origin = vs.getD ((j + 1) % vs.length) origin := by
  have h1 : j < (vs.rotate 1).length := by rw [List.length_rotate]; exact hj
  rw [List.getD_eq_getElem _ _ h1, List.getElem_rotate]
  exact (List.getD_eq_getElem _ _
    (Nat.mod_lt _ (lt_of_le_of_lt (Nat.zero_le j) hj))).symm

/-- Rotating the vertex list by one position leaves any cyclic
consecutive-pair sum unchanged. -/
lemma cyclicSum_rotate_one (f : Cartesian → Cartesian → ℚ)
    (vs : List Cartesian) : cyclicSum f (vs.rotate 1) = cyclicSum f vs := by
  rcases Nat.eq_zero_or_pos vs.length with h0 | hpos
  · rw [List.length_eq_zero.mp h0]
    simp [cyclicSum]
  · unfold cyclicSum
    rw [List.length_rotate]
    have step1 : ∀ i ∈ Finset.range vs.length,
        f ((vs.rotate 1).getD i origin)
          ((vs.rotate 1).getD ((i + 1) % vs.length) origin)
        = (fun j => f (vs.getD j origin)
            (vs.getD ((j + 1) % vs.length) origin)) ((i + 1) % vs.length) := by
      intro i hi
      rw [Finset.mem_range] at hi
      rw [getD_rotate_one vs i hi,
        getD_rotate_one vs ((i + 1) % vs.length) (Nat.mod_lt _ hpos)]
    rw [Finset.sum_congr rfl step1]
    exact sum_range_mod_shift
      (fun j => f (vs.getD j origin) (vs.getD ((j + 1) % vs.length) origin))
      vs.length hpos

/-- Rotating the vertex list by any number of positions leaves any cyclic
consecutive-pair sum unchanged. -/
lemma cyclicSum_rotate (f : Cartesian → Cartesian → ℚ) (vs : List Cartesian)
    (k : ℕ) : cyclicSum f (vs.rotate k) = cyclicSum f vs := by
  induction k with
  | zero => rw [List.rotate_zero]
  | succ k ih => rw [← List.rotate_rotate, cyclicSum_rotate_one, ih]

lemma getD_reverse (vs : List Cartesian) (j : ℕ) (hj : j < vs.length) :
    vs.reverse.getD j origin = vs.getD (vs.length - 1 - j) origin := by
  have h1 : j < vs.reverse.length := by rw [List.length_reverse]; exact hj
  rw [List.getD_eq_getElem _ _ h1, List.getElem_reverse]
  exact (List.getD_eq_getElem _ _ (by omega)).symm

/-- Reversing the vertex list swaps the roles of the two arguments in any
cyclic consecutive-pair sum. -/
lemma cyclicSum_reverse (f : Cartesian → Cartesian → ℚ)
    (vs : List Cartesian) :
    cyclicSum f vs.reverse = cyclicSum (fun a b => f b a) vs := by
  rcases Nat.eq_zero_or_pos vs.length with h0 | hpos
  · rw [List.length_eq_zero.mp h0]
    simp [cyclicSum]
  · unfold cyclicSum
    rw [List.length_reverse]
    have step1 : ∀ i ∈ Finset.range vs.length,
        f (vs.reverse.getD i origin)
          (vs.reverse.getD ((i + 1) % vs.length) origin)
        = (fun m => f (vs.getD m origin)
            (vs.getD ((m + vs.length - 1) % vs.length) origin))
            (vs.length - 1 - i) := by
      intro i hi
      rw [Finset.mem_range] at hi
      rw [getD_reverse vs i hi,
        getD_reverse vs ((i + 1) % vs.length) (Nat.mod_lt _ hpos)]
      have eidx : vs.length - 1 - ((i + 1) % vs.length)
          = (vs.length - 1 - i + vs.length - 1) % vs.length := by
        rcases Nat.lt_or_ge i (vs.length - 1) with hlt | hge
        · rw [Nat.mod_eq_of_lt (by omega)]
          have e1 : vs.length - 1 - i + vs.length - 1
              = (vs.length - 1 - (i + 1)) + vs.length := by omega
          rw [e1, Nat.add_mod_right]
          exact (Nat.mod_eq_of_lt (by omega)).symm
        · have hi' : i = vs.length - 1 := by omega
          subst hi'
          have e2 : vs.length - 1 + 1 = vs.length := by omega
          rw [e2, Nat.mod_self]
          have e3 : vs.length - 1 - (vs.length - 1) + vs.length - 1
              = vs.length - 1 := by omega
          rw [e3]
          exact (Nat.mod_eq_of_lt (by omega)).symm
      show f (vs.getD (vs.length - 1 - i) origin)
          (vs.getD (vs.length - 1 - ((i + 1) % vs.length)) origin)
        = f (vs.getD (vs.length - 1 - i) origin)
          (vs.getD ((vs.length - 1 - i + vs.length - 1) % vs.length) origin)
      rw [eidx]
    rw [Finset.sum_congr rfl step1,
      Finset.sum_range_reflect
        (fun m => f (vs.getD m origin)
          (vs.getD ((m + vs.length - 1) % vs.length) origin)) vs.length]
    have step2 : ∀ i ∈ Finset.range vs.length,
        (fun m => f (vs.getD m origin)
          (vs.getD ((m + vs.length - 1) % vs.length) origin)) i
        = (fun j => f (vs.getD ((j + 1) % vs.length) origin)
            (vs.getD j origin)) ((i + vs.length - 1) % vs.length) := by
      intro i hi
      rw [Finset.mem_range] at hi
      have eidx : ((i + vs.length - 1) % vs.length + 1) % vs.length = i := by
        rw [Nat.mod_add_mod]
        have e4 : i + vs.length - 1 + 1 = i + vs.length := by omega
        rw [e4, Nat.add_mod_right]
        exact Nat.mod_eq_of_lt hi
      show f (vs.getD i origin)
          (vs.getD ((i + vs.length - 1) % vs.length) origin)
        = f (vs.getD (((i + vs.length - 1) % vs.length + 1) % vs.length) origin)
          (vs.getD ((i + vs.length - 1) % vs.length) origin)
      rw [eidx]
    rw [Finset.sum_congr rfl step2]
    exact sum_range_mod_shift_pred
      (fun j => f (vs.getD ((j + 1) % vs.length) origin) (vs.getD j origin))
      vs.length hpos

/-- Pointwise-equal pair functions give equal cyclic sums. -/
lemma cyclicSum_congr {f g : Cartesian → Cartesian → ℚ}
    (h : ∀ a b, f a b = g a b) (vs : List Cartesian) :
    cyclicSum f vs = cyclicSum g vs := by
  unfold cyclicSum
  exact Finset.sum_congr rfl fun i _ => h _ _

lemma cyclicSum_neg (f : Cartesian → Cartesian → ℚ) (vs : List Cartesian) :
    cyclicSum (fun a b => -f a b) vs = -cyclicSum f vs := by
  unfold cyclicSum
  exact Finset.sum_neg_distrib

/-- Changing the starting vertex does not change the area. -/
lemma polygonArea_rotate (vs : List Cartesian) (k : ℕ) :
    polygonArea ⟨vs.rotate k⟩ = polygonArea ⟨vs⟩ := by
  unfold polygonArea
  rw [cyclicSum_rotate]

/-- Reversing the winding direction does not change the area. -/
lemma polygonArea_reverse (vs : List Cartesian) :
    polygonArea ⟨vs.reverse⟩ = polygonArea ⟨vs⟩ := by
  unfold polygonArea
  rw [cyclicSum_reverse,
    cyclicSum_congr (g := fun a b => -(a.x * b.y - a.y * b.x))
      (fun a b => by ring) vs,
    cyclicSum_neg, neg_div, abs_neg]

lemma polygonArea_unit_square :
    polygonArea ⟨[⟨0,0⟩, ⟨1,0⟩, ⟨1,1⟩, ⟨0,1⟩]⟩ = 1 := by
  norm_num [polygonArea, cyclicSum, Finset.sum_range_succ]

/-- C4: `polygonArea` is the absolute value of half the shoelace sum over
consecutive vertex pairs, hence nonnegative; it is invariant under change
of starting vertex (rotation of the vertex list) and of winding direction
(reversal); and the unit square has area 1 from every starting vertex in
either winding. -/
theorem polygonArea_spec (p : Polygon) (k : ℕ) :
    polygonArea p =
      |∑ i ∈ Finset.range p.vertices.length,
        ((p.vertices.getD i origin).x *
            (p.vertices.getD ((i + 1) % p.vertices.length) origin).y -
          (p.vertices.getD i origin).y *
            (p.vertices.getD ((i + 1) % p.vertices.length) origin).x)| / 2 ∧
    0 ≤ polygonArea p ∧
    polygonArea ⟨p.vertices.rotate k⟩ = polygonArea p ∧
    polygonArea ⟨p.vertices.reverse⟩ = polygonArea p ∧
    polygonArea ⟨([⟨0,0⟩, ⟨1,0⟩, ⟨1,1⟩, ⟨0,1⟩] : List Cartesian).rotate k⟩ = 1 ∧
    polygonArea ⟨([⟨0,0⟩, ⟨1,0⟩, ⟨1,1⟩, ⟨0,1⟩] : List Cartesian).reverse.rotate k⟩
      = 1 := by
  refine ⟨?_, ?_, ?_, ?_, ?_, ?_⟩
  · rw [polygonArea, cyclicSum, abs_div]
    norm_num
  · exact abs_nonneg _
  · exact polygonArea_rotate p.vertices k
  · exact polygonArea_reverse p.vertices
  · rw [polygonArea_rotate]
    exact polygonArea_unit_square
  · rw [polygonArea_rotate, polygonArea_reverse]
    exact polygonArea_unit_square

/-- C6 (amended): on a polygon of nonzero area, `centroid` returns the
pointwise absolute value of the area-weighted centroid, so it equals the
area-weighted centroid only when both of that point's coordinates are
nonnegative. -/
theorem centroid_abs_of_centroidSpec (p : Polygon) (h : polygonArea p ≠ 0) :
    centroid p = ⟨|(centroidSpec p).x|, |(centroidSpec p).y|⟩ ∧
    (0 ≤ (centroidSpec p).x → 0 ≤ (centroidSpec p).y →
      centroid p = centroidSpec p) := by
  have hsh : cyclicSum (fun a b => a.x * b.y - b.x * a.y) p.vertices
      = cyclicSum (fun a b => a.x * b.y - a.y * b.x) p.vertices :=
    cyclicSum_congr (fun a b => by ring) _
  have hx : (centroid p).x = |(centroidSpec p).x| := by
    show |cyclicSum (fun a b => (a.x + b.x) * (a.x * b.y - b.x * a.y))
          p.vertices| / (polygonArea p * 6)
      = |cyclicSum (fun a b => (a.x + b.x) * (a.x * b.y - b.x * a.y))
          p.vertices /
          (6 * (cyclicSum (fun a b => a.x * b.y - b.x * a.y) p.vertices / 2))|
    rw [abs_div, hsh]
    unfold polygonArea
    rw [abs_mul, abs_of_nonneg (by norm_num : (0:ℚ) ≤ 6)]
    ring
  have hy : (centroid p).y = |(centroidSpec p).y| := by
    show |cyclicSum (fun a b => (a.y + b.y) * (a.x * b.y - b.x * a.y))
          p.vertices| / (polygonArea p * 6)
      = |cyclicSum (fun a b => (a.y + b.y) * (a.x * b.y - b.x * a.y))
          p.vertices /
          (6 * (cyclicSum (fun a b => a.x * b.y - b.x * a.y) p.vertices / 2))|
    rw [abs_div, hsh]
    unfold polygonArea
    rw [abs_mul, abs_of_nonneg (by norm_num : (0:ℚ) ≤ 6)]
    ring
  have habs : centroid p = ⟨|(centroidSpec p).x|, |(centroidSpec p).y|⟩ := by
    ext
    · exact hx
    · exact hy
  refine ⟨habs, fun hnx hny => ?_⟩
  rw [habs]
  ext
  · exact abs_of_nonneg hnx
  · exact abs_of_nonneg hny

/-- Witness for C6 on the unit square (centroid in the positive quadrant). -/
theorem centroid_abs_of_centroidSpec_witness :
    centroid ⟨[⟨0,0⟩, ⟨1,0⟩, ⟨1,1⟩, ⟨0,1⟩]⟩ =
      ⟨|(centroidSpec ⟨[⟨0,0⟩, ⟨1,0⟩, ⟨1,1⟩, ⟨0,1⟩]⟩).x|,
       |(centroidSpec ⟨[⟨0,0⟩, ⟨1,0⟩, ⟨1,1⟩, ⟨0,1⟩]⟩).y|⟩ :=
  (centroid_abs_of_centroidSpec ⟨[⟨0,0⟩, ⟨1,0⟩, ⟨1,1⟩, ⟨0,1⟩]⟩
    (by rw [polygonArea_unit_square]; norm_num)).1

/-- C6 counterexample: the unit square with corners (−2,−2) and (−1,−1)
(counter-clockwise, area 1) has area-weighted centroid (−3/2, −3/2) by the
claim's own formula, but `centroid` returns (3/2, 3/2). -/
theorem centroid_cex :
    polygonArea ⟨[⟨-2,-2⟩, ⟨-1,-2⟩, ⟨-1,-1⟩, ⟨-2,-1⟩]⟩ = 1 ∧
    centroidSpec ⟨[⟨-2,-2⟩, ⟨-1,-2⟩, ⟨-1,-1⟩, ⟨-2,-1⟩]⟩ = ⟨-3/2, -3/2⟩ ∧
    centroid ⟨[⟨-2,-2⟩, ⟨-1,-2⟩, ⟨-1,-1⟩, ⟨-2,-1⟩]⟩ = ⟨3/2, 3/2⟩ ∧
    centroid ⟨[⟨-2,-2⟩, ⟨-1,-2⟩, ⟨-1,-1⟩, ⟨-2,-1⟩]⟩ ≠
      centroidSpec ⟨[⟨-2,-2⟩, ⟨-1,-2⟩, ⟨-1,-1⟩, ⟨-2,-1⟩]⟩ := by
  refine ⟨?_, ?_, ?_, ?_⟩ <;>
    norm_num [polygonArea, centroid, centroidSpec, cyclicSum,
      Finset.sum_range_succ, Cartesian.mk.injEq]

lemma lexLe_refl (a : Cartesian) : lexLe a a := Or.inr ⟨rfl, le_refl _⟩

lemma lexLe_trans {a b c : Cartesian} (h1 : lexLe a b) (h2 : lexLe b c) :
    lexLe a c := by
  rcases h1 with h1 | ⟨h1x, h1y⟩ <;> rcases h2 with h2 | ⟨h2x, h2y⟩
  · exact Or.inl (h1.trans h2)
  · exact Or.inl (h2x ▸ h1)
  · exact Or.inl (h1x ▸ h2)
  · exact Or.inr ⟨h1x.trans h2x, h1y.trans h2y⟩

lemma lexLe_antisymm {a b : Cartesian} (h1 : lexLe a b) (h2 : lexLe b a) :
    a = b := by
  rcases h1 with h1 | ⟨h1x, h1y⟩ <;> rcases h2 with h2 | ⟨h2x, h2y⟩
  · exact absurd (h1.trans h2) (lt_irrefl _)
  · exact absurd h1 (by rw [h2x]; exact lt_irrefl _)
  · exact absurd h2 (by rw [h1x]; exact lt_irrefl _)
  · exact Cartesian.ext h1x (le_antisymm h1y h2y)

lemma lexLe_total (a b : Cartesian) : lexLe a b ∨ lexLe b a := by
  rcases lt_trichotomy a.x b.x with h | h | h
  · exact Or.inl (Or.inl h)
  · rcases le_total a.y b.y with hy | hy
    · exact Or.inl (Or.inr ⟨h, hy⟩)
    · exact Or.inr (Or.inr ⟨h.symm, hy⟩)
  · exact Or.inr (Or.inl h)

instance : IsTotal Cartesian lexLe := ⟨lexLe_total⟩

instance : IsTrans Cartesian lexLe := ⟨fun _ _ _ => lexLe_trans⟩

lemma lexLt_le {a b : Cartesian} (h : lexLt a b) : lexLe a b := by
  rcases h with h | ⟨hx, hy⟩
  · exact Or.inl h
  · exact Or.inr ⟨hx, le_of_lt hy⟩

lemma lexLt_ne {a b : Cartesian} (h : lexLt a b) : a ≠ b := by
  rintro rfl
  rcases h with h | ⟨_, h⟩ <;> exact lt_irrefl _ h

lemma lexLt_of_le_of_ne {a b : Cartesian} (h : lexLe a b) (hne : a ≠ b) :
    lexLt a b := by
  rcases h with h | ⟨hx, hy⟩
  · exact Or.inl h
  · rcases lt_or_eq_of_le hy with h | h
    · exact Or.inr ⟨hx, h⟩
    · exact absurd (Cartesian.ext hx h) hne

lemma cross_swap_head (Z A B : Cartesian) :
    crossProduct Z A B = -crossProduct A Z B := by
  simp only [crossProduct]; ring

lemma cross_cyclic (Z A B : Cartesian) :
    crossProduct Z A B = crossProduct A B Z := by
  simp only [crossProduct]; ring

lemma cross_right_self (Z A : Cartesian) : crossProduct Z A A = 0 := by
  simp only [crossProduct]; ring

lemma cross_left_self (Z A : Cartesian) : crossProduct Z Z A = 0 := by
  simp only [crossProduct]; ring

lemma cross_base_self (Z A : Cartesian) : crossProduct Z A Z = 0 := by
  simp only [crossProduct]; ring

/-- Plücker-style quadratic identity for the two-dimensional cross
product, with all four side tests anchored at `c`. -/
lemma cross_plucker (d c r p q : Cartesian) :
    crossProduct d c r * crossProduct c p q
      = crossProduct d c p * crossProduct c r q
        - crossProduct d c q * crossProduct c r p := by
  simp only [crossProduct]; ring

/-- Safety of the fresh edge after at least one pop: `r` was popped by `p`
against surviving edge end `c` with `d` below it. -/
lemma pop_safety {d c r p q : Cartesian}
    (h1 : 0 < crossProduct d c r) (h2 : 0 ≤ crossProduct d c q)
    (h3 : 0 ≤ crossProduct c r q) (h4 : crossProduct c r p ≤ 0)
    (h5 : 0 < crossProduct d c p) : 0 ≤ crossProduct c p q := by
  have key := cross_plucker d c r p q
  have t1 : 0 ≤ crossProduct d c p * crossProduct c r q :=
    mul_nonneg (le_of_lt h5) h3
  have t2 : crossProduct d c q * crossProduct c r p ≤ 0 := by
    have := mul_nonneg h2 (neg_nonneg.mpr h4)
    nlinarith [this]
  by_contra hneg
  push_neg at hneg
  have hl : crossProduct d c r * crossProduct c p q < 0 :=
    mul_neg_of_pos_of_neg h1 hneg
  linarith

/-- The x-coordinate extraction identity used by the push/pop boundary
cases. -/
lemma cross_x_ident (d c p q : Cartesian) :
    (c.x - d.x) * crossProduct c p q
      = crossProduct d c p * (c.x - q.x) + crossProduct d c q * (p.x - c.x) := by
  simp only [crossProduct]; ring

/-- Safety of the fresh edge when no pop happens: the stack top `c` is the
lexicographic maximum of the processed points. -/
lemma push_safety {d c p q : Cartesian}
    (h1 : d.x ≤ c.x) (h2 : d.x = c.x → d.y ≤ c.y)
    (h3 : q.x ≤ c.x) (h4 : c.x ≤ p.x)
    (h5 : 0 ≤ crossProduct d c q) (h6 : 0 < crossProduct d c p) :
    0 ≤ crossProduct c p q := by
  have key := cross_x_ident d c p q
  rcases lt_or_eq_of_le h1 with hlt | heq
  · have hr : 0 ≤ crossProduct d c p * (c.x - q.x)
        + crossProduct d c q * (p.x - c.x) :=
      add_nonneg (mul_nonneg h6.le (by linarith)) (mul_nonneg h5 (by linarith))
    by_contra hneg
    push_neg at hneg
    have : (c.x - d.x) * crossProduct c p q < 0 :=
      mul_neg_of_pos_of_neg (by linarith) hneg
    linarith
  · have hdy : d.y ≤ c.y := h2 heq
    have hform : crossProduct d c p = -((c.y - d.y) * (p.x - c.x)) := by
      simp only [crossProduct]
      linear_combination (-(p.y - c.y)) * heq
    nlinarith [mul_nonneg (by linarith : (0:ℚ) ≤ c.y - d.y)
      (by linarith : (0:ℚ) ≤ p.x - c.x)]

/-- The mirror identity with the popped edge anchored at the stack bottom. -/
lemma cross_x_ident_bot (a b p q : Cartesian) :
    (b.x - a.x) * crossProduct a p q
      = crossProduct a b q * (p.x - a.x) - crossProduct a b p * (q.x - a.x) := by
  simp only [crossProduct]; ring

/-- Safety of the fresh edge when the pops reach the bottom of the stack:
`a` is the lexicographic minimum of the processed points and `b` the point
popped last. -/
lemma bottom_pop_safety {a b p q : Cartesian}
    (h1 : lexLt a b) (h2 : lexLe a q) (h3 : lexLe a p)
    (h4 : 0 ≤ crossProduct a b q) (h5 : crossProduct a b p ≤ 0) :
    0 ≤ crossProduct a p q := by
  have key := cross_x_ident_bot a b p q
  have hax : a.x ≤ q.x := by
    rcases h2 with h | ⟨h, _⟩ <;> linarith [h]
  have hap : a.x ≤ p.x := by
    rcases h3 with h | ⟨h, _⟩ <;> linarith [h]
  have hab : a.x ≤ b.x := by
    rcases h1 with h | ⟨h, _⟩ <;> linarith [h]
  rcases lt_or_eq_of_le hab with hlt | heq
  · have hr : 0 ≤ crossProduct a b q * (p.x - a.x)
        - crossProduct a b p * (q.x - a.x) := by
      have t1 : 0 ≤ crossProduct a b q * (p.x - a.x) :=
        mul_nonneg h4 (by linarith)
      have t2 : crossProduct a b p * (q.x - a.x) ≤ 0 :=
        mul_nonpos_iff.mpr (Or.inr ⟨h5, by linarith⟩)
      linarith
    by_contra hneg
    push_neg at hneg
    have : (b.x - a.x) * crossProduct a p q < 0 :=
      mul_neg_of_pos_of_neg (by linarith) hneg
    linarith
  · have hby : a.y < b.y := by
      rcases h1 with h | ⟨_, h⟩
      · exact absurd heq (ne_of_lt h)
      · exact h
    have hq4 : crossProduct a b q = -((b.y - a.y) * (q.x - a.x)) := by
      simp only [crossProduct]
      linear_combination (-(q.y - a.y)) * heq
    have hqle : q.x ≤ a.x := by nlinarith [hq4]
    have hqx : q.x = a.x := le_antisymm hqle hax
    have hqy : a.y ≤ q.y := by
      rcases h2 with h | ⟨_, h⟩
      · rw [hqx] at h; exact absurd h (lt_irrefl _)
      · exact h
    have hgoal : crossProduct a p q = (p.x - a.x) * (q.y - a.y) := by
      simp only [crossProduct]
      linear_combination (-(p.y - a.y)) * hqx
    rw [hgoal]
    exact mul_nonneg (by linarith) (by linarith)

/-- Left-turn transitivity along a lexicographically sorted chain. -/
lemma cross_trans_lex {a b c p : Cartesian}
    (hab : lexLe a b) (hbc : lexLe b c) (hcp : lexLe c p)
    (h1 : 0 < crossProduct a b c) (h2 : 0 < crossProduct b c p) :
    0 < crossProduct a b p := by
  have hax : a.x ≤ b.x := by rcases hab with h | ⟨h, _⟩ <;> linarith [h]
  have hbx : b.x ≤ c.x := by rcases hbc with h | ⟨h, _⟩ <;> linarith [h]
  have hcx : c.x ≤ p.x := by rcases hcp with h | ⟨h, _⟩ <;> linarith [h]
  rcases lt_or_eq_of_le hbx with hlt | heq
  · have key : (c.x - b.x) * crossProduct a b p
        = (p.x - b.x) * crossProduct a b c
          + (b.x - a.x) * crossProduct b c p := by
      simp only [crossProduct]; ring
    nlinarith [mul_pos (show (0:ℚ) < p.x - b.x by linarith) h1,
      mul_nonneg (show (0:ℚ) ≤ b.x - a.x by linarith) h2.le]
  · rcases hbc with h | ⟨_, hy⟩
    · rw [heq] at h; exact absurd h (lt_irrefl _)
    · have hform : crossProduct b c p = -((c.y - b.y) * (p.x - c.x)) := by
        simp only [crossProduct]
        linear_combination (-(p.y - c.y)) * heq
      nlinarith [mul_nonneg (show (0:ℚ) ≤ c.y - b.y by linarith)
        (show (0:ℚ) ≤ p.x - c.x by linarith)]

lemma stackTurns_tail {x : Cartesian} {S : List Cartesian}
    (h : StackTurns (x :: S)) : StackTurns S := by
  match S with
  | [] => trivial
  | [_] => trivial
  | a :: b :: t => exact h.2

lemma stackDesc_tail {x : Cartesian} {S : List Cartesian}
    (h : StackDesc (x :: S)) : StackDesc S := by
  match S with
  | [] => trivial
  | a :: t => exact h.2

lemma edgesSafe_tail {q x : Cartesian} {S : List Cartesian}
    (h : EdgesSafe q (x :: S)) : EdgesSafe q S := by
  match S with
  | [] => trivial
  | a :: t => exact h.2

lemma popWhile_singleton (p x : Cartesian) : popWhile p [x] = [x] := rfl

lemma popWhile_mem {p a : Cartesian} : ∀ {S : List Cartesian},
    a ∈ popWhile p S → a ∈ S
  | [], h => h
  | [x], h => h
  | b :: c :: rest, h => by
    rw [popWhile] at h
    split at h
    · exact List.mem_cons_of_mem b (popWhile_mem h)
    · exact h

lemma popWhile_ne_nil {p : Cartesian} : ∀ {S : List Cartesian}, S ≠ [] →
    popWhile p S ≠ []
  | [], h => absurd rfl h
  | [x], _ => by rw [popWhile_singleton]; exact List.cons_ne_nil _ _
  | b :: c :: rest, _ => by
    rw [popWhile]
    split
    · exact popWhile_ne_nil (List.cons_ne_nil _ _)
    · exact List.cons_ne_nil _ _

lemma popWhile_getLast? {p : Cartesian} : ∀ {S : List Cartesian},
    (popWhile p S).getLast? = S.getLast?
  | [] => rfl
  | [x] => by rw [popWhile_singleton]
  | b :: c :: rest => by
    rw [popWhile]
    split
    · rw [popWhile_getLast?, List.getLast?_cons_cons]
    · rfl

lemma popWhile_turns {p : Cartesian} : ∀ {S : List Cartesian},
    StackTurns S → StackTurns (popWhile p S)
  | [], h => h
  | [x], h => h
  | b :: c :: rest, h => by
    rw [popWhile]
    split
    · exact popWhile_turns (stackTurns_tail h)
    · exact h

lemma popWhile_desc {p : Cartesian} : ∀ {S : List Cartesian},
    StackDesc S → StackDesc (popWhile p S)
  | [], h => h
  | [x], h => h
  | b :: c :: rest, h => by
    rw [popWhile]
    split
    · exact popWhile_desc (stackDesc_tail h)
    · exact h

lemma popWhile_edges {p q : Cartesian} : ∀ {S : List Cartesian},
    EdgesSafe q S → EdgesSafe q (popWhile p S)
  | [], h => h
  | [x], h => h
  | b :: c :: rest, h => by
    rw [popWhile]
    split
    · exact popWhile_edges (edgesSafe_tail h)
    · exact h

lemma popWhile_shape (p : Cartesian) : ∀ (S : List Cartesian),
    popWhile p S = [] ∨ (∃ x, popWhile p S = [x]) ∨
    (∃ b a rest, popWhile p S = b :: a :: rest ∧ 0 < crossProduct a b p)
  | [] => Or.inl rfl
  | [x] => Or.inr (Or.inl ⟨x, popWhile_singleton p x⟩)
  | b :: c :: rest => by
    rw [popWhile]
    split
    · exact popWhile_shape p (c :: rest)
    · next hc =>
      exact Or.inr (Or.inr ⟨b, c, rest, rfl, lt_of_not_le hc⟩)

lemma lexLe_x {a b : Cartesian} (h : lexLe a b) : a.x ≤ b.x := by
  rcases h with h | ⟨h, _⟩ <;> linarith [h]

lemma lexLt_tie {a b : Cartesian} (h : lexLt a b) (hx : a.x = b.x) :
    a.y ≤ b.y := by
  rcases h with h | ⟨_, h⟩
  · rw [hx] at h; exact absurd h (lt_irrefl _)
  · exact le_of_lt h

/-- Core safety of the fresh edge: after the pops triggered by `p`, every
previously processed point lies weakly to the left of the edge from the
surviving stack top to `p`. -/
lemma popWhile_new_edge_safe (P : List Cartesian) (p : Cartesian)
    (hgeP : ∀ q ∈ P, lexLe q p) :
    ∀ (tl : List Cartesian) (c : Cartesian),
    (∀ a ∈ c :: tl, a ∈ P) →
    StackTurns (c :: tl) →
    (StackDesc (c :: tl) ∨ (∃ x, c :: tl = [x, x] ∧ ∀ q ∈ P, q = x)) →
    (∀ q ∈ P, EdgesSafe q (c :: tl)) →
    (∀ b, (c :: tl).getLast? = some b → ∀ q ∈ P, lexLe b q) →
    ((∀ q ∈ P, lexLe q c) ∨
      (∃ r, r ∈ P ∧ lexLt c r ∧ (∀ q ∈ P, 0 ≤ crossProduct c r q) ∧
        crossProduct c r p ≤ 0 ∧
        (∀ d tl2, tl = d :: tl2 → 0 < crossProduct d c r))) →
    ∀ q ∈ P, 0 ≤ crossProduct ((popWhile p (c :: tl)).headD origin) p q := by
  intro tl
  induction tl with
  | nil =>
    intro c hsub _ _ _ hbot halt q hq
    rw [popWhile_singleton]
    show 0 ≤ crossProduct c p q
    have hbc : ∀ q ∈ P, lexLe c q := hbot c rfl
    rcases halt with htop | ⟨r, hrP, hlt, hA, hB, _⟩
    · have hqc : q = c := lexLe_antisymm (htop q hq) (hbc q hq)
      rw [hqc, cross_base_self]
    · exact bottom_pop_safety hlt (hbc q hq) (hgeP c (hsub c (by simp)))
        (hA q hq) hB
  | cons d tl2 ih =>
    intro c hsub hturns hdesc hedges hbot halt q hq
    rw [popWhile]
    split
    case isTrue hpop =>
      rcases hdesc with hdesc | ⟨x, hx, hall⟩
      · refine ih d ?_ ?_ ?_ ?_ ?_ ?_ q hq
        · intro a ha; exact hsub a (List.mem_cons_of_mem c ha)
        · exact stackTurns_tail hturns
        · exact Or.inl hdesc.2
        · intro q' hq'; exact (hedges q' hq').2
        · intro b hb
          apply hbot b
          rw [List.getLast?_cons_cons]; exact hb
        · refine Or.inr ⟨c, hsub c (by simp), hdesc.1,
            (fun q' hq' => (hedges q' hq').1), hpop, ?_⟩
          intro e tl3 htl
          subst htl
          exact hturns.1
      · obtain ⟨hcx, hdx, htl2⟩ : c = x ∧ d = x ∧ tl2 = [] := by
          simpa using hx
        have hdc : d = c := by rw [hdx, hcx]
        subst htl2
        rw [hdc]
        refine ih c ?_ ?_ ?_ ?_ ?_ ?_ q hq
        · intro a ha
          have ha' : a = c := by simpa using ha
          rw [ha']
          exact hsub c (by simp)
        · trivial
        · exact Or.inl trivial
        · intro q' _; trivial
        · intro b hb q' hq'
          have hbc : c = b := by simpa using hb
          rw [← hbc, hall q' hq', ← hcx]
          exact lexLe_refl c
        · refine Or.inl (fun q' hq' => ?_)
          rw [hall q' hq', ← hcx]
          exact lexLe_refl c
    case isFalse hstop =>
      have hpos : 0 < crossProduct d c p := lt_of_not_le hstop
      show 0 ≤ crossProduct c p q
      rcases halt with htop | ⟨r, _, _, hA, hB, hC⟩
      · rcases hdesc with hdesc | ⟨x, hx, hall⟩
        · have hdc : lexLt d c := hdesc.1
          exact push_safety (lexLe_x (lexLt_le hdc)) (lexLt_tie hdc)
            (lexLe_x (htop q hq)) (lexLe_x (hgeP c (hsub c (by simp))))
            (hedges q hq).1 hpos
        · have hcx : c = x := by injection hx
          have hdx : d = x := by
            have := hx; injection this with _ h2; injection h2
          rw [hcx, hdx] at hpos
          rw [cross_left_self] at hpos
          exact absurd hpos (lt_irrefl 0)
      · exact pop_safety (hC d tl2 rfl) (hedges q hq).1 (hA q hq) hB hpos

/-- All surviving stack edges are weakly left-safe for the pushed point
itself, by descending the chain with left-turn transitivity. -/
lemma edgesSafe_push (p : Cartesian) :
    ∀ (rest : List Cartesian) (a b : Cartesian),
    StackTurns (b :: a :: rest) → StackDesc (b :: a :: rest) →
    (∀ e ∈ b :: a :: rest, lexLe e p) → 0 < crossProduct a b p →
    EdgesSafe p (b :: a :: rest) := by
  intro rest
  induction rest with
  | nil =>
    intro a b _ _ _ htop
    exact ⟨le_of_lt htop, trivial⟩
  | cons r rest2 ih =>
    intro a b hturns hdesc hmem htop
    refine ⟨le_of_lt htop, ?_⟩
    refine ih r a ?_ ?_ ?_ ?_
    · exact stackTurns_tail hturns
    · exact hdesc.2
    · intro e he; exact hmem e (List.mem_cons_of_mem b he)
    · exact cross_trans_lex (lexLt_le hdesc.2.1) (lexLt_le hdesc.1)
        (hmem b (by simp)) hturns.1 htop

lemma getLast?_cons_of_ne_nil {α : Type} (a : α) {l : List α} (h : l ≠ []) :
    (a :: l).getLast? = l.getLast? := by
  cases l with
  | nil => exact absurd rfl h
  | cons b t => exact List.getLast?_cons_cons

lemma mem_of_getLast?_eq {α : Type} : ∀ {l : List α} {a : α},
    l.getLast? = some a → a ∈ l
  | [], _, h => by simp at h
  | [x], a, h => by
    simp only [List.getLast?_singleton, Option.some.injEq] at h
    rw [← h]; exact List.mem_cons_self x []
  | x :: y :: t, a, h => by
    rw [List.getLast?_cons_cons] at h
    exact List.mem_cons_of_mem x (mem_of_getLast?_eq h)

/-- One loop iteration preserves the invariant when the new point is
lexicographically at least every processed point. -/
lemma chainStep_inv {S P : List Cartesian} {p : Cartesian}
    (inv : ChainInv S P) (hgeP : ∀ q ∈ P, lexLe q p) :
    ChainInv (chainStep S p) (p :: P) := by
  obtain ⟨c, tl, rfl⟩ : ∃ c tl, S = c :: tl := by
    cases hS : S with
    | nil => exact absurd hS inv.ne
    | cons c tl => exact ⟨c, tl, rfl⟩
  have hPne : P ≠ [] := List.ne_nil_of_mem (inv.sub c (by simp))
  have hcore : ∀ q ∈ P,
      0 ≤ crossProduct ((popWhile p (c :: tl)).headD origin) p q :=
    popWhile_new_edge_safe P p hgeP tl c inv.sub inv.turns inv.desc inv.edges
      (fun b hb => inv.bots b hb) (Or.inl (inv.tops c rfl))
  have hne' : popWhile p (c :: tl) ≠ [] :=
    popWhile_ne_nil (List.cons_ne_nil c tl)
  have hlast' : (popWhile p (c :: tl)).getLast? = (c :: tl).getLast? :=
    popWhile_getLast?
  have hmem' : ∀ a ∈ popWhile p (c :: tl), a ∈ P :=
    fun a ha => inv.sub a (popWhile_mem ha)
  have hLep : ∀ a ∈ popWhile p (c :: tl), lexLe a p :=
    fun a ha => hgeP a (hmem' a ha)
  show ChainInv (p :: popWhile p (c :: tl)) (p :: P)
  rcases popWhile_shape p (c :: tl) with h0 | ⟨x, hx⟩ | ⟨b, a, rest, hba, hstop⟩
  · exact absurd h0 hne'
  -- singleton survivor
  · have hxP : x ∈ P := hmem' x (by rw [hx]; exact List.mem_cons_self x [])
    refine ⟨List.cons_ne_nil _ _, ?_, ?_, ?_, ?_, ?_, ?_, ?_, ?_⟩
    · intro e he
      rcases List.mem_cons.mp he with he | he
      · rw [he]; exact List.mem_cons_self p P
      · exact List.mem_cons_of_mem p (hmem' e he)
    · show StackTurns (p :: popWhile p (c :: tl))
      rw [hx]; trivial
    · show StackDesc (p :: popWhile p (c :: tl)) ∨ _
      by_cases hxp : x = p
      · refine Or.inr ⟨p, by rw [hx, hxp], ?_⟩
        intro q hq
        rcases List.mem_cons.mp hq with hq | hq
        · exact hq
        · have hxb : (c :: tl).getLast? = some x := by rw [← hlast', hx]; rfl
          have h1 : lexLe x q := inv.bots x hxb q hq
          have h2 : lexLe q x := by rw [hxp]; exact hgeP q hq
          exact (lexLe_antisymm h2 h1).trans hxp
      · refine Or.inl ?_
        rw [hx]
        exact ⟨lexLt_of_le_of_ne (hgeP x hxP) hxp, trivial⟩
    · intro t ht q hq
      have htp : p = t := by simpa using ht
      rw [← htp]
      rcases List.mem_cons.mp hq with hq | hq
      · rw [hq]; exact lexLe_refl p
      · exact hgeP q hq
    · intro b hb q hq
      rw [getLast?_cons_of_ne_nil p hne', hlast'] at hb
      rcases List.mem_cons.mp hq with hq | hq
      · rw [hq]
        exact hgeP b (inv.sub b (mem_of_getLast?_eq hb))
      · exact inv.bots b hb q hq
    · intro q hq
      rcases List.mem_cons.mp hq with hq | hq
      · show EdgesSafe q (p :: popWhile p (c :: tl))
        rw [hx, hq]
        exact ⟨by rw [cross_right_self], trivial⟩
      · show EdgesSafe q (p :: popWhile p (c :: tl))
        have hq1 := hcore q hq
        rw [hx] at hq1 ⊢
        exact ⟨hq1, trivial⟩
    · rfl
    · show (p :: popWhile p (c :: tl)).getLast? = (p :: P).getLast?
      rw [getLast?_cons_of_ne_nil p hne', hlast', inv.lastP,
        getLast?_cons_of_ne_nil p hPne]
  -- at least two survivors, strictly counter-clockwise stop
  · have hdescS' : StackDesc (popWhile p (c :: tl)) := by
      rcases inv.desc with hdesc | ⟨x, hSx, _⟩
      · exact popWhile_desc hdesc
      · exfalso
        have : popWhile p (c :: tl) = [x] := by
          rw [hSx]
          show popWhile p (x :: x :: []) = [x]
          rw [popWhile]
          have : crossProduct x x p ≤ 0 := le_of_eq (cross_left_self x p)
          rw [if_pos this, popWhile_singleton]
        rw [this] at hba
        simp at hba
    have hbP : b ∈ P := hmem' b (by rw [hba]; exact List.mem_cons_self b _)
    have hbp : lexLt b p := by
      refine lexLt_of_le_of_ne (hgeP b hbP) ?_
      intro hbeq
      rw [hbeq] at hstop
      rw [cross_right_self] at hstop
      exact absurd hstop (lt_irrefl 0)
    refine ⟨List.cons_ne_nil _ _, ?_, ?_, ?_, ?_, ?_, ?_, ?_, ?_⟩
    · intro e he
      rcases List.mem_cons.mp he with he | he
      · rw [he]; exact List.mem_cons_self p P
      · exact List.mem_cons_of_mem p (hmem' e he)
    · show StackTurns (p :: popWhile p (c :: tl))
      rw [hba]
      have ht := popWhile_turns (p := p) inv.turns
      rw [hba] at ht
      exact ⟨hstop, ht⟩
    · refine Or.inl ?_
      show StackDesc (p :: popWhile p (c :: tl))
      rw [hba]
      have hd := hdescS'
      rw [hba] at hd
      exact ⟨hbp, hd⟩
    · intro t ht q hq
      have htp : p = t := by simpa using ht
      rw [← htp]
      rcases List.mem_cons.mp hq with hq | hq
      · rw [hq]; exact lexLe_refl p
      · exact hgeP q hq
    · intro e he q hq
      rw [getLast?_cons_of_ne_nil p hne', hlast'] at he
      rcases List.mem_cons.mp hq with hq | hq
      · rw [hq]
        exact hgeP e (inv.sub e (mem_of_getLast?_eq he))
      · exact inv.bots e he q hq
    · intro q hq
      rcases List.mem_cons.mp hq with hq | hq
      · show EdgesSafe q (p :: popWhile p (c :: tl))
        rw [hba, hq]
        refine ⟨by rw [cross_right_self], ?_⟩
        have ht := popWhile_turns (p := p) inv.turns
        rw [hba] at ht
        have hd := hdescS'
        rw [hba] at hd
        refine edgesSafe_push p rest a b ht hd ?_ hstop
        intro e he
        apply hLep e
        rw [hba]; exact he
      · show EdgesSafe q (p :: popWhile p (c :: tl))
        have hq1 := hcore q hq
        rw [hba] at hq1 ⊢
        refine ⟨hq1, ?_⟩
        have he := popWhile_edges (p := p) (inv.edges q hq)
        rw [hba] at he
        exact he
    · rfl
    · show (p :: popWhile p (c :: tl)).getLast? = (p :: P).getLast?
      rw [getLast?_cons_of_ne_nil p hne', hlast', inv.lastP,
        getLast?_cons_of_ne_nil p hPne]

lemma cross_negP (a b c : Cartesian) :
    crossProduct (negP a) (negP b) (negP c) = crossProduct a b c := by
  simp only [crossProduct, negP]; ring

lemma lexLe_negP {a b : Cartesian} : lexLe (negP a) (negP b) ↔ lexLe b a := by
  simp only [lexLe, negP]
  constructor
  · rintro (h | ⟨h1, h2⟩)
    · exact Or.inl (by linarith)
    · exact Or.inr ⟨by linarith, by linarith⟩
  · rintro (h | ⟨h1, h2⟩)
    · exact Or.inl (by linarith)
    · exact Or.inr ⟨by linarith, by linarith⟩

lemma lexLt_negP {a b : Cartesian} : lexLt (negP a) (negP b) ↔ lexLt b a := by
  simp only [lexLt, negP]
  constructor
  · rintro (h | ⟨h1, h2⟩)
    · exact Or.inl (by linarith)
    · exact Or.inr ⟨by linarith, by linarith⟩
  · rintro (h | ⟨h1, h2⟩)
    · exact Or.inl (by linarith)
    · exact Or.inr ⟨by linarith, by linarith⟩

lemma popWhile_negP (p : Cartesian) : ∀ S : List Cartesian,
    popWhile (negP p) (S.map negP) = (popWhile p S).map negP
  | [] => rfl
  | [_] => rfl
  | b :: a :: rest => by
    have hL : popWhile (negP p) (negP b :: negP a :: rest.map negP)
        = if crossProduct (negP a) (negP b) (negP p) ≤ 0
          then popWhile (negP p) (negP a :: rest.map negP)
          else negP b :: negP a :: rest.map negP := by rw [popWhile]
    have hR : popWhile p (b :: a :: rest)
        = if crossProduct a b p ≤ 0 then popWhile p (a :: rest)
          else b :: a :: rest := by rw [popWhile]
    simp only [List.map_cons]
    rw [hL, hR, cross_negP]
    split
    · simpa using popWhile_negP p (a :: rest)
    · simp

lemma chainStep_negP (S : List Cartesian) (p : Cartesian) :
    chainStep (S.map negP) (negP p) = (chainStep S p).map negP := by
  rw [chainStep, chainStep, popWhile_negP, List.map_cons]

lemma foldl_negP : ∀ (pts S : List Cartesian),
    (pts.map negP).foldl chainStep (S.map negP)
      = (pts.foldl chainStep S).map negP
  | [], _ => rfl
  | p :: pts2, S => by
    simp only [List.map_cons, List.foldl_cons]
    rw [chainStep_negP]
    exact foldl_negP pts2 (chainStep S p)

lemma stackTurns_negP : ∀ S : List Cartesian,
    StackTurns (S.map negP) ↔ StackTurns S
  | [] => Iff.rfl
  | [_] => by constructor <;> intro <;> trivial
  | [_, _] => by constructor <;> intro <;> trivial
  | p :: b :: a :: rest => by
    show (0 < crossProduct (negP a) (negP b) (negP p) ∧
        StackTurns (negP b :: negP a :: rest.map negP)) ↔ _
    rw [cross_negP]
    exact and_congr Iff.rfl (stackTurns_negP (b :: a :: rest))

lemma edgesSafe_negP (q : Cartesian) : ∀ S : List Cartesian,
    EdgesSafe (negP q) (S.map negP) ↔ EdgesSafe q S
  | [] => Iff.rfl
  | [_] => by constructor <;> intro <;> trivial
  | hi :: lo :: rest => by
    show (0 ≤ crossProduct (negP lo) (negP hi) (negP q) ∧
        EdgesSafe (negP q) (negP lo :: rest.map negP)) ↔ _
    rw [cross_negP]
    exact and_congr Iff.rfl (edgesSafe_negP q (lo :: rest))

lemma stackAsc_of_negP_desc : ∀ S : List Cartesian,
    StackDesc (S.map negP) → StackAsc S
  | [], _ => trivial
  | [_], _ => trivial
  | b :: a :: rest, h => by
    have h1 : lexLt (negP a) (negP b) ∧ StackDesc (negP a :: rest.map negP) :=
      h
    exact ⟨lexLt_negP.mp h1.1, stackAsc_of_negP_desc (a :: rest) h1.2⟩

lemma chainCCW_tail {x : Cartesian} {l : List Cartesian}
    (h : ChainCCW (x :: l)) : ChainCCW l := by
  match l with
  | [] => trivial
  | [_] => trivial
  | _ :: _ :: _ => exact h.2

lemma chainLeft_tail {q x : Cartesian} {l : List Cartesian}
    (h : ChainLeft q (x :: l)) : ChainLeft q l := by
  match l with
  | [] => trivial
  | _ :: _ => exact h.2

/-- A point on the lines of both edges of a strict turn is the corner. -/
lemma eq_of_double_cross_zero {a b c q : Cartesian}
    (h1 : crossProduct a b q = 0) (h2 : crossProduct b c q = 0)
    (hturn : 0 < crossProduct a b c) : q = b := by
  have hx : (q.x - b.x) * crossProduct a b c
      = (a.x - b.x) * crossProduct b c q + (c.x - b.x) * crossProduct a b q := by
    simp only [crossProduct]; ring
  have hy : (q.y - b.y) * crossProduct a b c
      = (a.y - b.y) * crossProduct b c q + (c.y - b.y) * crossProduct a b q := by
    simp only [crossProduct]; ring
  rw [h1, h2] at hx hy
  simp only [mul_zero, add_zero, zero_add] at hx hy
  have hxx : q.x = b.x := by
    rcases mul_eq_zero.mp hx with h | h
    · linarith
    · exact absurd h (ne_of_gt hturn)
  have hyy : q.y = b.y := by
    rcases mul_eq_zero.mp hy with h | h
    · linarith
    · exact absurd h (ne_of_gt hturn)
  exact Cartesian.ext hxx hyy

lemma chainUniq_of_chainCCW (q : Cartesian) : ∀ l : List Cartesian,
    ChainCCW l → ChainUniq q l
  | [], _ => trivial
  | [_], _ => trivial
  | [_, _], _ => trivial
  | a :: b :: c :: rest, h =>
    ⟨fun h1 h2 => eq_of_double_cross_zero h1 h2 h.1,
     chainUniq_of_chainCCW q (b :: c :: rest) h.2⟩

lemma chainCCW_snoc : ∀ (l : List Cartesian) (x : Cartesian),
    ChainCCW l →
    (∀ a b pre, l = pre ++ [a, b] → 0 < crossProduct a b x) →
    ChainCCW (l ++ [x])
  | [], x, _, _ => trivial
  | [_], x, _, _ => trivial
  | a :: b :: rest, x, h, hlast => by
    match rest, h, hlast with
    | [], h, hlast =>
      exact ⟨hlast a b [] rfl, trivial⟩
    | c :: rest2, h, hlast =>
      refine ⟨h.1, ?_⟩
      refine chainCCW_snoc (b :: c :: rest2) x h.2 ?_
      intro e f pre hpre
      exact hlast e f (a :: pre) (by rw [hpre]; rfl)

lemma chainLeft_snoc (q : Cartesian) : ∀ (l : List Cartesian) (x : Cartesian),
    ChainLeft q l →
    (∀ b pre, l = pre ++ [b] → 0 ≤ crossProduct b x q) →
    ChainLeft q (l ++ [x])
  | [], x, _, _ => trivial
  | [a], x, _, hlast => ⟨hlast a [] rfl, trivial⟩
  | a :: b :: rest, x, h, hlast => by
    refine ⟨h.1, ?_⟩
    refine chainLeft_snoc q (b :: rest) x h.2 ?_
    intro e pre hpre
    exact hlast e (a :: pre) (by rw [hpre]; rfl)

lemma chainCCW_reverse_of_stackTurns : ∀ S : List Cartesian,
    StackTurns S → ChainCCW S.reverse
  | [], _ => trivial
  | x :: S2, h => by
    rw [List.reverse_cons]
    refine chainCCW_snoc S2.reverse x
      (chainCCW_reverse_of_stackTurns S2 (stackTurns_tail h)) ?_
    intro a b pre hpre
    have hS2 : S2 = b :: a :: pre.reverse := by
      have := congrArg List.reverse hpre
      simpa using this
    rw [hS2] at h
    exact h.1

lemma chainLeft_reverse_of_edgesSafe (q : Cartesian) : ∀ S : List Cartesian,
    EdgesSafe q S → ChainLeft q S.reverse
  | [], _ => trivial
  | x :: S2, h => by
    rw [List.reverse_cons]
    refine chainLeft_snoc q S2.reverse x
      (chainLeft_reverse_of_edgesSafe q S2 (edgesSafe_tail h)) ?_
    intro b pre hpre
    have hS2 : S2 = b :: pre.reverse := by
      have := congrArg List.reverse hpre
      simpa using this
    rw [hS2] at h
    exact h.1

lemma chainCCW_append : ∀ (l₁ l₂ : List Cartesian),
    ChainCCW l₁ → ChainCCW l₂ →
    (∀ x y pre z rest2, l₁ = pre ++ [x, y] → l₂ = z :: rest2 →
      0 < crossProduct x y z) →
    (∀ y pre z w rest2, l₁ = pre ++ [y] → l₂ = z :: w :: rest2 →
      0 < crossProduct y z w) →
    ChainCCW (l₁ ++ l₂)
  | [], l₂, _, h₂, _, _ => h₂
  | [a], l₂, _, h₂, _, hs2 => by
    match l₂, h₂, hs2 with
    | [], _, _ => trivial
    | [z], _, _ => trivial
    | z :: w :: rest2, h₂, hs2 =>
      exact ⟨hs2 a [] z w rest2 rfl rfl, h₂⟩
  | a :: b :: rest, l₂, h₁, h₂, hs1, hs2 => by
    have htail : ChainCCW ((b :: rest) ++ l₂) := by
      refine chainCCW_append (b :: rest) l₂ ?_ h₂ ?_ ?_
      · match rest, h₁ with
        | [], _ => trivial
        | c :: rest2, h₁ => exact h₁.2
      · intro x y pre hz rest2 hpre hl₂
        exact hs1 x y (a :: pre) hz rest2 (by rw [hpre]; rfl) hl₂
      · intro y pre z w rest2 hpre hl₂
        exact hs2 y (a :: pre) z w rest2 (by rw [hpre]; rfl) hl₂
    match rest, h₁, htail with
    | [], _, htail =>
      match l₂, hs1, htail with
      | [], _, _ => trivial
      | z :: rest2, hs1, htail =>
        exact ⟨hs1 a b [] z rest2 rfl rfl, htail⟩
    | c :: rest2, h₁, htail => exact ⟨h₁.1, htail⟩

lemma chainLeft_append (q : Cartesian) : ∀ (l₁ l₂ : List Cartesian),
    ChainLeft q l₁ → ChainLeft q l₂ →
    (∀ y pre z rest2, l₁ = pre ++ [y] → l₂ = z :: rest2 →
      0 ≤ crossProduct y z q) →
    ChainLeft q (l₁ ++ l₂)
  | [], l₂, _, h₂, _ => h₂
  | [a], l₂, _, h₂, hs => by
    match l₂, h₂, hs with
    | [], _, _ => trivial
    | z :: rest2, h₂, hs => exact ⟨hs a [] z rest2 rfl rfl, h₂⟩
  | a :: b :: rest, l₂, h₁, h₂, hs => by
    refine ⟨h₁.1, ?_⟩
    refine chainLeft_append q (b :: rest) l₂ h₁.2 h₂ ?_
    intro y pre z rest2 hpre hl₂
    exact hs y (a :: pre) z rest2 (by rw [hpre]; rfl) hl₂

/-- The invariant holds for the one-point stack after the first push. -/
lemma chainInv_init (s : Cartesian) : ChainInv [s] [s] := by
  refine ⟨List.cons_ne_nil s [], fun a ha => ha, trivial, Or.inl trivial,
    ?_, ?_, ?_, rfl, rfl⟩
  · intro t ht q hq
    have h1 : s = t := by simpa using ht
    have h2 : q = s := by simpa using hq
    rw [← h1, h2]
    exact lexLe_refl s
  · intro b hb q hq
    have h1 : s = b := by simpa using hb
    have h2 : q = s := by simpa using hq
    rw [← h1, h2]
    exact lexLe_refl s
  · intro q _
    trivial

/-- Folding the loop body over a sorted block of points preserves the
invariant. -/
lemma chainFold_inv : ∀ (pts S P : List Cartesian),
    ChainInv S P → List.Sorted lexLe pts →
    (∀ x ∈ pts, ∀ q ∈ P, lexLe q x) →
    ChainInv (pts.foldl chainStep S) (pts.reverse ++ P)
  | [], S, P, inv, _, _ => by simpa using inv
  | p :: pts2, S, P, inv, hsort, hge => by
    have inv2 : ChainInv (chainStep S p) (p :: P) :=
      chainStep_inv inv (fun q hq => hge p (List.mem_cons_self p pts2) q hq)
    have hge2 : ∀ x ∈ pts2, ∀ q ∈ p :: P, lexLe q x := by
      intro x hx q hq
      rcases List.mem_cons.mp hq with hq | hq
      · rw [hq]
        exact List.rel_of_sorted_cons hsort x hx
      · exact hge x (List.mem_cons_of_mem p hx) q hq
    have h := chainFold_inv pts2 (chainStep S p) (p :: P) inv2 hsort.of_cons
      hge2
    simpa [List.reverse_cons, List.append_assoc] using h

/-- The full lower-hull loop establishes the invariant over all sorted
points. -/
lemma chainRun_inv {s : Cartesian} {ss : List Cartesian}
    (hsort : List.Sorted lexLe (s :: ss)) :
    ChainInv ((s :: ss).foldl chainStep []) ((s :: ss).reverse) := by
  have h0 : (s :: ss).foldl chainStep [] = ss.foldl chainStep [s] := rfl
  have hge : ∀ x ∈ ss, ∀ q ∈ [s], lexLe q x := by
    intro x hx q hq
    have hq' : q = s := by simpa using hq
    rw [hq']
    exact List.rel_of_sorted_cons hsort x hx
  have h := chainFold_inv ss [s] [s] (chainInv_init s) hsort.of_cons hge
  rw [h0]
  have he : ss.reverse ++ [s] = (s :: ss).reverse := (List.reverse_cons s ss).symm
  rwa [he] at h

lemma sorted_le_getLast? : ∀ {l : List Cartesian}, List.Sorted lexLe l →
    ∀ {x}, x ∈ l → ∀ {b}, l.getLast? = some b → lexLe x b
  | [], _, x, hx, _, _ => absurd hx (List.not_mem_nil x)
  | [y], _, x, hx, b, hb => by
    have h1 : x = y := by simpa using hx
    have h2 : y = b := by simpa using hb
    rw [h1, h2]
    exact lexLe_refl b
  | y :: z :: t, hs, x, hx, b, hb => by
    rw [List.getLast?_cons_cons] at hb
    rcases List.mem_cons.mp hx with h1 | h1
    · subst h1
      exact List.rel_of_sorted_cons hs b (mem_of_getLast?_eq hb)
    · exact sorted_le_getLast? hs.of_cons h1 hb

lemma negP_inj {a b : Cartesian} (h : negP a = negP b) : a = b := by
  simp only [negP, Cartesian.mk.injEq] at h
  exact Cartesian.ext (by linarith [h.1]) (by linarith [h.2])

lemma two_le_length_of_head_ne_last {α : Type} {l : List α} {x y : α}
    (h1 : l.head? = some x) (h2 : l.getLast? = some y) (hxy : x ≠ y) :
    2 ≤ l.length := by
  match l with
  | [] => simp at h1
  | [a] =>
    have hx : a = x := by simpa using h1
    have hy : a = y := by simpa using h2
    exact absurd (hx ▸ hy) hxy
  | a :: b :: t => simp

lemma exists_end_pair {α : Type} (l : List α) (hl : 2 ≤ l.length) :
    ∃ (pre : List α) (y z : α), l = pre ++ [y, z] := by
  cases hrev : l.reverse with
  | nil =>
    exfalso
    have h : l = [] := by simpa using congrArg List.reverse hrev
    rw [h] at hl
    simp at hl
  | cons z rest1 =>
    cases rest1 with
    | nil =>
      exfalso
      have h : l = [z] := by simpa using congrArg List.reverse hrev
      rw [h] at hl
      simp at hl
    | cons y rest =>
      refine ⟨rest.reverse, y, z, ?_⟩
      have h2 : l = (z :: y :: rest).reverse := by
        rw [← hrev, List.reverse_reverse]
      rw [h2]
      simp

lemma getLast?_append_right {α : Type} : ∀ (l₁ : List α) {l₂ : List α},
    l₂ ≠ [] → (l₁ ++ l₂).getLast? = l₂.getLast?
  | [], _, _ => by simp
  | x :: rest, l₂, h => by
    rw [List.cons_append, getLast?_cons_of_ne_nil]
    · exact getLast?_append_right rest h
    · intro hnil
      exact h (List.append_eq_nil.mp hnil).2

lemma stackAsc_tail {x : Cartesian} {S : List Cartesian}
    (h : StackAsc (x :: S)) : StackAsc S := by
  match S with
  | [] => trivial
  | a :: t => exact h.2

lemma stackAsc_end_pair (u m : Cartesian) : ∀ pre : List Cartesian,
    StackAsc (pre ++ [u, m]) → lexLt u m
  | [], h => h.1
  | _ :: pre2, h => stackAsc_end_pair u m pre2 (stackAsc_tail h)

lemma stackDesc_end_pair (y x : Cartesian) : ∀ pre : List Cartesian,
    StackDesc (pre ++ [y, x]) → lexLt x y
  | [], h => h.1
  | _ :: pre2, h => stackDesc_end_pair y x pre2 (stackDesc_tail h)

lemma edgesSafe_end_pair (q hi lo : Cartesian) : ∀ pre : List Cartesian,
    EdgesSafe q (pre ++ [hi, lo]) → 0 ≤ crossProduct lo hi q
  | [], h => h.1
  | _ :: pre2, h => edgesSafe_end_pair q hi lo pre2 (edgesSafe_tail h)

/-- Two points strictly lexicographically below `M` and collinear with it
sit on the same ray out of `M`: one is a positive multiple of the other. -/
lemma backward_parallel {M U L : Cartesian}
    (hU : lexLt U M) (hL : lexLt L M) (hcol : crossProduct M U L = 0) :
    ∃ t : ℚ, 0 < t ∧ U.x - M.x = t * (L.x - M.x) ∧
      U.y - M.y = t * (L.y - M.y) := by
  have hc : (U.x - M.x) * (L.y - M.y) - (U.y - M.y) * (L.x - M.x) = 0 := by
    simpa [crossProduct] using hcol
  rcases hL with hLx | ⟨hLx, hLy⟩
  · rcases hU with hUx | ⟨hUx, hUy⟩
    · have hd : L.x - M.x ≠ 0 := by
        intro h
        rw [sub_eq_zero] at h
        exact absurd h (ne_of_lt hLx)
      refine ⟨(U.x - M.x) / (L.x - M.x), ?_, ?_, ?_⟩
      · exact div_pos_of_neg_of_neg (by linarith) (by linarith)
      · rw [div_mul_cancel₀ _ hd]
      · rw [div_mul_eq_mul_div, eq_div_iff hd]
        linear_combination -hc
    · exfalso
      have h2 : (U.y - M.y) * (L.x - M.x) = 0 := by
        linear_combination (L.y - M.y) * hUx - hc
      rcases mul_eq_zero.mp h2 with h | h
      · linarith
      · linarith
  · have h2 : (U.x - M.x) * (L.y - M.y) = 0 := by
      linear_combination hc + (U.y - M.y) * hLx
    have hUx : U.x = M.x := by
      rcases mul_eq_zero.mp h2 with h | h
      · linarith
      · linarith
    have hUy : U.y < M.y := by
      rcases hU with h | ⟨_, h⟩
      · rw [hUx] at h
        exact absurd h (lt_irrefl _)
      · exact h
    have hd : L.y - M.y ≠ 0 := by
      intro h
      rw [sub_eq_zero] at h
      exact absurd h (ne_of_lt hLy)
    refine ⟨(U.y - M.y) / (L.y - M.y), ?_, ?_, ?_⟩
    · exact div_pos_of_neg_of_neg (by linarith) (by linarith)
    · rw [hUx, hLx]
      ring
    · rw [div_mul_cancel₀ _ hd]

/-- Mirror image of `backward_parallel` for points strictly above `s`. -/
lemma forward_parallel {s U L : Cartesian}
    (hU : lexLt s U) (hL : lexLt s L) (hcol : crossProduct s U L = 0) :
    ∃ t : ℚ, 0 < t ∧ U.x - s.x = t * (L.x - s.x) ∧
      U.y - s.y = t * (L.y - s.y) := by
  have hb := backward_parallel (lexLt_negP.mpr hU) (lexLt_negP.mpr hL)
    (by rw [cross_negP]; exact hcol)
  obtain ⟨t, ht, hx, hy⟩ := hb
  simp only [negP] at hx hy
  exact ⟨t, ht, by linear_combination -hx, by linear_combination -hy⟩

/-- All points on a fixed line through two distinct points are mutually
collinear. -/
lemma cross_zero_of_on_line {e1 e2 : Cartesian} (hne : e1 ≠ e2)
    {a b c : Cartesian}
    (ha : crossProduct e1 e2 a = 0) (hb : crossProduct e1 e2 b = 0)
    (hc : crossProduct e1 e2 c = 0) : crossProduct a b c = 0 := by
  simp only [crossProduct] at ha hb hc
  obtain ⟨ta, hax, hay⟩ := exists_t_of_cross_eq_zero a e1 e2 hne
    (by linear_combination -ha)
  obtain ⟨tb, hbx, hby⟩ := exists_t_of_cross_eq_zero b e1 e2 hne
    (by linear_combination -hb)
  obtain ⟨tc, hcx, hcy⟩ := exists_t_of_cross_eq_zero c e1 e2 hne
    (by linear_combination -hc)
  simp only [crossProduct]
  rw [hax, hay, hbx, hby, hcx, hcy]
  ring

/-- At the lexicographic maximum `M`, the last lower-hull edge and the
first upper-hull edge meet in a strict left turn; otherwise every point
would be collinear with that edge. -/
lemma junction_max {P : List Cartesian} {d M u : Cartesian}
    (hnc : ∃ a ∈ P, ∃ b ∈ P, ∃ c ∈ P, crossProduct a b c ≠ 0)
    (hu : u ∈ P)
    (hd : lexLt d M) (huM : lexLt u M)
    (hedge1 : ∀ q ∈ P, 0 ≤ crossProduct d M q)
    (hedge2 : ∀ q ∈ P, 0 ≤ crossProduct M u q) :
    0 < crossProduct d M u := by
  rcases lt_or_eq_of_le (hedge1 u hu) with h | h
  · exact h
  exfalso
  have hcol : crossProduct M u d = 0 := by
    rw [← cross_cyclic]
    exact h.symm
  obtain ⟨t, ht, hx, hy⟩ := backward_parallel huM hd hcol
  have hall : ∀ q ∈ P, crossProduct d M q = 0 := by
    intro q hq
    have h2 : crossProduct M u q = t * crossProduct M d q := by
      simp only [crossProduct]
      linear_combination (q.y - M.y) * hx - (q.x - M.x) * hy
    rw [cross_swap_head M d q] at h2
    have h4 := hedge2 q hq
    have h5 := hedge1 q hq
    by_contra hne
    have hcpos : 0 < crossProduct d M q := lt_of_le_of_ne h5 (Ne.symm hne)
    have h6 : t * -crossProduct d M q = -(t * crossProduct d M q) := by ring
    rw [h2, h6] at h4
    have := mul_pos ht hcpos
    linarith
  obtain ⟨a, ha, b, hb, c, hc, habc⟩ := hnc
  exact habc (cross_zero_of_on_line (lexLt_ne hd) (hall a ha) (hall b hb)
    (hall c hc))

/-- At the lexicographic minimum `s`, the last upper-hull edge and the
first lower-hull edge meet in a strict left turn. -/
lemma junction_min {P : List Cartesian} {w s L1 : Cartesian}
    (hnc : ∃ a ∈ P, ∃ b ∈ P, ∃ c ∈ P, crossProduct a b c ≠ 0)
    (hL1 : L1 ∈ P)
    (hsw : lexLt s w) (hsL : lexLt s L1)
    (hedge1 : ∀ q ∈ P, 0 ≤ crossProduct w s q)
    (hedge2 : ∀ q ∈ P, 0 ≤ crossProduct s L1 q) :
    0 < crossProduct w s L1 := by
  rcases lt_or_eq_of_le (hedge1 L1 hL1) with h | h
  · exact h
  exfalso
  have hcol : crossProduct s L1 w = 0 := by
    rw [cross_cyclic] at h
    exact h.symm
  obtain ⟨t, ht, hx, hy⟩ := forward_parallel hsL hsw hcol
  have hall : ∀ q ∈ P, crossProduct w s q = 0 := by
    intro q hq
    have h2 : crossProduct s L1 q = t * crossProduct s w q := by
      simp only [crossProduct]
      linear_combination (q.y - s.y) * hx - (q.x - s.x) * hy
    rw [cross_swap_head s w q] at h2
    have h4 := hedge2 q hq
    have h5 := hedge1 q hq
    by_contra hne
    have hcpos : 0 < crossProduct w s q := lt_of_le_of_ne h5 (Ne.symm hne)
    have h6 : t * -crossProduct w s q = -(t * crossProduct w s q) := by ring
    rw [h2, h6] at h4
    have := mul_pos ht hcpos
    linarith
  obtain ⟨a, ha, b, hb, c, hc, habc⟩ := hnc
  exact habc (cross_zero_of_on_line (lexLt_ne hsw).symm (hall a ha)
    (hall b hb) (hall c hc))

/-- Unfolding of `convexHull` once the sorted point list is known to be
nonempty. -/
lemma convexHull_eq_of_sorted {polygons : List Polygon} {s : Cartesian}
    {ss : List Cartesian}
    (h : sortPoints ((polygons.map Polygon.vertices).flatten) = s :: ss) :
    (convexHull polygons).vertices
      = ((s :: ss).foldl chainStep []).reverse
        ++ (((s :: ss).dropLast.reverse).foldl chainStep
            [(s :: ss).getLast (List.cons_ne_nil s ss)]).reverse.tail := by
  simp only [convexHull]
  rw [h]

/-- C5: for input polygons whose vertices contain at least 3 points not
all collinear (witnessed by one triple with nonzero cross product),
`convexHull` returns the convex hull of the union of all input vertices in
counter-clockwise order: the vertex list is a closed cycle of at least
four entries whose first vertex is repeated as its last, all its vertices
are input vertices, consecutive vertex triples (cyclically) turn strictly
counter-clockwise — so every listed vertex is a corner and no interior
input point appears — every input vertex lies weakly to the left of every
(cyclic) directed edge, i.e. the cycle encloses all input vertices, and a
point on the lines of both edges at a vertex is that vertex. -/
theorem convexHull_spec (polygons : List Polygon)
    (hnc : ∃ a ∈ (polygons.map Polygon.vertices).flatten,
        ∃ b ∈ (polygons.map Polygon.vertices).flatten,
        ∃ c ∈ (polygons.map Polygon.vertices).flatten,
        crossProduct a b c ≠ 0) :
    4 ≤ (convexHull polygons).vertices.length ∧
    (convexHull polygons).vertices.head? = (convexHull polygons).vertices.getLast? ∧
    (∀ v ∈ (convexHull polygons).vertices,
        v ∈ (polygons.map Polygon.vertices).flatten) ∧
    ChainCCW ((convexHull polygons).vertices
      ++ (convexHull polygons).vertices.tail.take 1) ∧
    (∀ q ∈ (polygons.map Polygon.vertices).flatten,
        ChainLeft q (convexHull polygons).vertices) ∧
    (∀ q : Cartesian, ChainUniq q ((convexHull polygons).vertices
      ++ (convexHull polygons).vertices.tail.take 1)) := by
  have hmem0 : ∀ x : Cartesian,
      x ∈ sortPoints ((polygons.map Polygon.vertices).flatten) ↔
        x ∈ (polygons.map Polygon.vertices).flatten :=
    fun x => (List.perm_insertionSort lexLe _).mem_iff
  have hsorted0 : List.Sorted lexLe
      (sortPoints ((polygons.map Polygon.vertices).flatten)) :=
    List.sorted_insertionSort lexLe _
  have hne0 : sortPoints ((polygons.map Polygon.vertices).flatten) ≠ [] := by
    obtain ⟨a, ha, -⟩ := hnc
    intro h
    have := (hmem0 a).mpr ha
    rw [h] at this
    exact List.not_mem_nil a this
  obtain ⟨s, ss, hss⟩ := List.exists_cons_of_ne_nil hne0
  have hsort' : List.Sorted lexLe (s :: ss) := hss ▸ hsorted0
  have hmemS : ∀ x, x ∈ (s :: ss) ↔
      x ∈ (polygons.map Polygon.vertices).flatten := fun x => by
    rw [← hss]
    exact hmem0 x
  have hnc' : ∃ a ∈ (s :: ss), ∃ b ∈ (s :: ss), ∃ c ∈ (s :: ss),
      crossProduct a b c ≠ 0 := by
    obtain ⟨a, ha, b, hb, c, hc, h⟩ := hnc
    exact ⟨a, (hmemS a).mpr ha, b, (hmemS b).mpr hb, c, (hmemS c).mpr hc, h⟩
  have hall_ne : ¬ ∀ q ∈ (s :: ss), q = s := by
    intro hall
    obtain ⟨a, ha, b, hb, c, hc, h⟩ := hnc'
    rw [hall a ha, hall b hb, hall c hc] at h
    exact h (cross_left_self s s)
  obtain ⟨M, hM⟩ : ∃ M, (s :: ss).getLast (List.cons_ne_nil s ss) = M :=
    ⟨_, rfl⟩
  have hMlast : (s :: ss).getLast? = some M := by
    rw [← hM]
    exact List.getLast?_eq_getLast _ _
  have hMmem : M ∈ (s :: ss) := mem_of_getLast?_eq hMlast
  have hMmax : ∀ q ∈ (s :: ss), lexLe q M := fun q hq =>
    sorted_le_getLast? hsort' hq hMlast
  have hsmin : ∀ q ∈ (s :: ss), lexLe s q := by
    intro q hq
    rcases List.mem_cons.mp hq with h | h
    · rw [h]
      exact lexLe_refl s
    · exact List.rel_of_sorted_cons hsort' q h
  have hsM : s ≠ M := by
    intro h
    apply hall_ne
    intro q hq
    refine lexLe_antisymm ?_ (hsmin q hq)
    rw [h]
    exact hMmax q hq
  -- the lower hull
  have invL0 : ChainInv ((s :: ss).foldl chainStep []) ((s :: ss).reverse) :=
    chainRun_inv hsort'
  obtain ⟨lower, hlowdef⟩ : ∃ L, (s :: ss).foldl chainStep [] = L := ⟨_, rfl⟩
  rw [hlowdef] at invL0
  have hlowhead : lower.head? = some M := by
    rw [invL0.headP, List.head?_reverse]
    exact hMlast
  have hlowlast : lower.getLast? = some s := by
    rw [invL0.lastP, List.getLast?_reverse]
    rfl
  have hedgesL : ∀ q ∈ (s :: ss), EdgesSafe q lower := fun q hq =>
    invL0.edges q (List.mem_reverse.mpr hq)
  have hLsub : ∀ a ∈ lower, a ∈ (s :: ss) := fun a ha =>
    List.mem_reverse.mp (invL0.sub a ha)
  have hLdesc : StackDesc lower := by
    rcases invL0.desc with h | ⟨x, hx, hallx⟩
    · exact h
    · exfalso
      apply hall_ne
      intro q hq
      have h1 := hallx q (List.mem_reverse.mpr hq)
      have h2 := hallx s (List.mem_reverse.mpr (List.mem_cons_self s ss))
      rw [h1, ← h2]
  obtain ⟨prevM, l3, hlow⟩ : ∃ p l3, lower = M :: p :: l3 := by
    cases hl : lower with
    | nil =>
      rw [hl] at hlowhead
      simp at hlowhead
    | cons x rest =>
      rw [hl] at hlowhead hlowlast
      have hx : x = M := by simpa using hlowhead
      cases rest with
      | nil =>
        exfalso
        have hxs : x = s := by simpa using hlowlast
        exact hsM (by rw [← hxs, hx])
      | cons y rest2 => exact ⟨y, rest2, by rw [hx]⟩
  have hprevMlt : lexLt prevM M := by
    rw [hlow] at hLdesc
    exact hLdesc.1
  have hedge_prevM : ∀ q ∈ (s :: ss), 0 ≤ crossProduct prevM M q := by
    intro q hq
    have h := hedgesL q hq
    rw [hlow] at h
    exact h.1
  obtain ⟨L1, LR2, hLrev⟩ : ∃ L1 LR2, lower.reverse = s :: L1 :: LR2 := by
    cases hrv : lower.reverse with
    | nil =>
      rw [hlow] at hrv
      simp at hrv
    | cons x rest =>
      have hx : x = s := by
        have h1 : lower.reverse.head? = some s := by
          rw [List.head?_reverse]
          exact hlowlast
        rw [hrv] at h1
        simpa using h1
      cases rest with
      | nil =>
        exfalso
        have hlen := congrArg List.length hrv
        rw [hlow] at hlen
        simp at hlen
      | cons y rest2 => exact ⟨y, rest2, by rw [← hx]⟩
  have hlow2 : lower = LR2.reverse ++ [L1, s] := by
    have h0 := congrArg List.reverse hLrev
    rw [List.reverse_reverse] at h0
    rw [h0]
    simp
  have hsL1lt : lexLt s L1 := by
    refine stackDesc_end_pair L1 s LR2.reverse ?_
    rw [← hlow2]
    exact hLdesc
  have hedge_sL1 : ∀ q ∈ (s :: ss), 0 ≤ crossProduct s L1 q := by
    intro q hq
    refine edgesSafe_end_pair q L1 s LR2.reverse ?_
    rw [← hlow2]
    exact hedgesL q hq
  have hL1mem : L1 ∈ (s :: ss) := hLsub L1 (by rw [hlow2]; simp)
  -- the upper hull, via the point reflection through the origin
  obtain ⟨upper, hupdef⟩ :
      ∃ U, ((s :: ss).dropLast.reverse).foldl chainStep [M] = U := ⟨_, rfl⟩
  have hdropSorted : List.Sorted lexLe (s :: ss).dropLast :=
    List.Pairwise.sublist (List.dropLast_sublist _) hsort'
  have hrevPair : List.Pairwise (fun a b : Cartesian => lexLe b a)
      (s :: ss).dropLast.reverse := List.pairwise_reverse.mpr hdropSorted
  have hsortN : List.Sorted lexLe (((s :: ss).dropLast.reverse).map negP) := by
    refine List.pairwise_map.mpr ?_
    exact hrevPair.imp fun h => lexLe_negP.mpr h
  have hgeN : ∀ x ∈ ((s :: ss).dropLast.reverse).map negP,
      ∀ q ∈ [negP M], lexLe q x := by
    intro x hx q hq
    have hq' : q = negP M := by simpa using hq
    obtain ⟨y, hy, rfl⟩ := List.mem_map.mp hx
    rw [hq']
    refine lexLe_negP.mpr ?_
    exact hMmax y ((List.dropLast_sublist _).subset (List.mem_reverse.mp hy))
  have invN := chainFold_inv (((s :: ss).dropLast.reverse).map negP)
    [negP M] [negP M] (chainInv_init (negP M)) hsortN hgeN
  have hfold : (((s :: ss).dropLast.reverse).map negP).foldl chainStep
      [negP M] = upper.map negP := by
    have h := foldl_negP ((s :: ss).dropLast.reverse) [M]
    rw [hupdef] at h
    simpa using h
  have hPN : ((((s :: ss).dropLast.reverse).map negP)).reverse ++ [negP M]
      = (s :: ss).map negP := by
    rw [← List.map_reverse, List.reverse_reverse]
    have hdp : (s :: ss).dropLast ++ [M] = s :: ss := by
      rw [← hM]
      exact List.dropLast_append_getLast (List.cons_ne_nil s ss)
    calc ((s :: ss).dropLast).map negP ++ [negP M]
        = ((s :: ss).dropLast ++ [M]).map negP := by simp
      _ = (s :: ss).map negP := by rw [hdp]
  rw [hfold, hPN] at invN
  have hUturns : StackTurns upper := (stackTurns_negP upper).mp invN.turns
  have hUedges : ∀ q ∈ (s :: ss), EdgesSafe q upper := fun q hq =>
    (edgesSafe_negP q upper).mp (invN.edges (negP q) (List.mem_map_of_mem _ hq))
  have hUasc : StackAsc upper := by
    rcases invN.desc with h | ⟨x, hx, hallx⟩
    · exact stackAsc_of_negP_desc upper h
    · exfalso
      apply hall_ne
      intro q hq
      have h1 := hallx (negP q) (List.mem_map_of_mem _ hq)
      have h2 := hallx (negP s)
        (List.mem_map_of_mem _ (List.mem_cons_self s ss))
      exact negP_inj (h1.trans h2.symm)
  have hUsub : ∀ a ∈ upper, a ∈ (s :: ss) := by
    intro a ha
    have h := invN.sub (negP a) (List.mem_map_of_mem _ ha)
    obtain ⟨y, hy, hyeq⟩ := List.mem_map.mp h
    rw [← negP_inj hyeq]
    exact hy
  have hUhead : upper.head? = some s := by
    have h := invN.headP
    rw [List.head?_map, List.head?_map] at h
    cases hu : upper.head? with
    | none =>
      rw [hu] at h
      simp at h
    | some u0 =>
      rw [hu] at h
      have h2 : negP u0 = negP s := by simpa using h
      rw [negP_inj h2]
  have hUlast : upper.getLast? = some M := by
    have h := invN.lastP
    rw [List.getLast?_map, List.getLast?_map, hMlast] at h
    cases hu : upper.getLast? with
    | none =>
      rw [hu] at h
      simp at h
    | some u0 =>
      rw [hu] at h
      have h2 : negP u0 = negP M := by simpa using h
      rw [negP_inj h2]
  have hUne2 : 2 ≤ upper.length :=
    two_le_length_of_head_ne_last hUhead hUlast hsM
  obtain ⟨preU, U1, Mend, hUsplit⟩ := exists_end_pair upper hUne2
  have hMend : Mend = M := by
    have h := hUlast
    rw [hUsplit] at h
    have h2 : (preU ++ [U1, Mend]).getLast? = some Mend := by
      have he : preU ++ [U1, Mend] = (preU ++ [U1]) ++ [Mend] := by simp
      rw [he]
      exact List.getLast?_concat _
    rw [h2] at h
    exact Option.some_injective _ h
  rw [hMend] at hUsplit
  have hU1lt : lexLt U1 M := by
    refine stackAsc_end_pair U1 M preU ?_
    rw [← hUsplit]
    exact hUasc
  have hedge_U1M : ∀ q ∈ (s :: ss), 0 ≤ crossProduct M U1 q := by
    intro q hq
    refine edgesSafe_end_pair q U1 M preU ?_
    rw [← hUsplit]
    exact hUedges q hq
  have hU1mem : U1 ∈ (s :: ss) := hUsub U1 (by rw [hUsplit]; simp)
  have hUrev : upper.reverse = M :: U1 :: preU.reverse := by
    rw [hUsplit]
    simp
  obtain ⟨w, u3, hUcons⟩ : ∃ w u3, upper = s :: w :: u3 := by
    cases hu : upper with
    | nil =>
      rw [hu] at hUhead
      simp at hUhead
    | cons x rest =>
      rw [hu] at hUhead hUlast
      have hx : x = s := by simpa using hUhead
      cases rest with
      | nil =>
        exfalso
        have hxM : x = M := by simpa using hUlast
        exact hsM (by rw [← hx, hxM])
      | cons y rest2 => exact ⟨y, rest2, by rw [hx]⟩
  have hswlt : lexLt s w := by
    rw [hUcons] at hUasc
    exact hUasc.1
  have hedge_ws : ∀ q ∈ (s :: ss), 0 ≤ crossProduct w s q := by
    intro q hq
    have h := hUedges q hq
    rw [hUcons] at h
    exact h.1
  -- the two junction turns
  have hjM : 0 < crossProduct prevM M U1 :=
    junction_max hnc' hU1mem hprevMlt hU1lt hedge_prevM hedge_U1M
  have hjm : 0 < crossProduct w s L1 :=
    junction_min hnc' hL1mem hswlt hsL1lt hedge_ws hedge_sL1
  -- the output list
  have hT : upper.reverse.tail = U1 :: preU.reverse := by
    rw [hUrev]
    rfl
  have hTlast : (upper.reverse.tail).getLast? = some s := by
    have h1 : upper.reverse.getLast? = some s := by
      rw [List.getLast?_reverse]
      exact hUhead
    rw [hUrev] at h1 ⊢
    rw [List.tail_cons]
    rw [List.getLast?_cons_cons] at h1
    exact h1
  have hHfull : (convexHull polygons).vertices
      = (s :: L1 :: LR2) ++ (U1 :: preU.reverse) := by
    rw [convexHull_eq_of_sorted hss, hM, hlowdef, hupdef, hLrev, hT]
  have hccwU : ChainCCW (M :: U1 :: preU.reverse) := by
    have h := chainCCW_reverse_of_stackTurns upper hUturns
    rwa [hUrev] at h
  have hLastIsM : ∀ (y : Cartesian) (pre : List Cartesian),
      s :: L1 :: LR2 = pre ++ [y] → y = M := by
    intro y pre hpre
    have h1 : (s :: L1 :: LR2).getLast? = some y := by
      rw [hpre]
      exact List.getLast?_concat _
    rw [← hLrev, List.getLast?_reverse, hlowhead] at h1
    exact (Option.some_injective _ h1).symm
  rw [hHfull]
  have hccwFull : ChainCCW (((s :: L1 :: LR2) ++ U1 :: preU.reverse)
      ++ ((s :: L1 :: LR2) ++ U1 :: preU.reverse).tail.take 1) := by
    show ChainCCW (((s :: L1 :: LR2) ++ U1 :: preU.reverse) ++ [L1])
    rw [List.append_assoc]
    refine chainCCW_append _ _ ?_ ?_ ?_ ?_
    · rw [← hLrev]
      exact chainCCW_reverse_of_stackTurns lower invL0.turns
    · refine chainCCW_snoc _ L1 (chainCCW_tail hccwU) ?_
      intro a b pre hpre
      have hup2 : upper = b :: a :: (pre.reverse ++ [M]) := by
        have h1 : upper.reverse = (M :: pre) ++ [a, b] := by
          rw [hUrev, hpre]
          rfl
        have h2 := congrArg List.reverse h1
        rw [List.reverse_reverse] at h2
        rw [h2]
        simp
      rw [hUcons] at hup2
      injection hup2 with e1 hrest
      injection hrest with e2 _
      rw [← e1, ← e2]
      exact hjm
    · intro x y pre z rest2 hpre hz
      have h1 : lower = y :: x :: pre.reverse := by
        have h0 := congrArg List.reverse hLrev
        rw [List.reverse_reverse] at h0
        rw [h0, hpre]
        simp
      rw [hlow] at h1
      injection h1 with e1 hrest
      injection hrest with e2 _
      have h2 : U1 :: (preU.reverse ++ [L1]) = z :: rest2 := hz
      injection h2 with e3 _
      rw [← e1, ← e2, ← e3]
      exact hjM
    · intro y pre z w' rest2 hpre hz
      have hy : y = M := hLastIsM y pre hpre
      have h2 : U1 :: (preU.reverse ++ [L1]) = z :: w' :: rest2 := hz
      injection h2 with e3 h3
      cases hq : preU.reverse with
      | nil =>
        rw [hq] at h3
        have h4 : ([L1] : List Cartesian) = w' :: rest2 := h3
        injection h4 with e4 _
        have hpreUnil : preU = [] := by
          have := congrArg List.reverse hq
          simpa using this
        have h5 : upper = [U1, M] := by
          rw [hUsplit, hpreUnil]
          rfl
        rw [hUcons] at h5
        injection h5 with f1 h6
        injection h6 with f2 _
        rw [hy, ← e3, ← e4, ← f1, ← f2]
        exact hjm
      | cons r rest3 =>
        rw [hq] at h3
        have h4 : r :: (rest3 ++ [L1]) = w' :: rest2 := h3
        injection h4 with e4 _
        have hccwU' := hccwU
        rw [hq] at hccwU'
        rw [hy, ← e3, ← e4]
        exact hccwU'.1
  refine ⟨?_, ?_, ?_, hccwFull, ?_,
    fun q => chainUniq_of_chainCCW q _ hccwFull⟩
  · -- at least four vertices
    cases hLR2 : LR2 with
    | cons a as =>
      simp only [List.length_append, List.length_cons, List.length_reverse]
      omega
    | nil =>
      cases hpreU : preU with
      | cons a as =>
        simp only [List.length_append, List.length_cons,
          List.length_reverse]
        omega
      | nil =>
        exfalso
        rw [hLR2] at hlow2
        have hlowLs : lower = [L1, s] := by simpa using hlow2
        have hcomb : (M :: prevM :: l3 : List Cartesian) = [L1, s] := by
          rw [← hlow]
          exact hlowLs
        injection hcomb with g1 _
        rw [hpreU] at hUsplit
        have hUls : upper = [U1, M] := by simpa using hUsplit
        have hcomb2 : (s :: w :: u3 : List Cartesian) = [U1, M] := by
          rw [← hUcons]
          exact hUls
        injection hcomb2 with g2 _
        have hzero : ∀ q ∈ (s :: ss), crossProduct s M q = 0 := by
          intro q hq
          have ha := hedge_sL1 q hq
          rw [← g1] at ha
          have hb := hedge_U1M q hq
          rw [← g2] at hb
          rw [cross_swap_head] at hb
          linarith
        obtain ⟨a, ha, b, hbm, c, hc, habc⟩ := hnc'
        exact habc (cross_zero_of_on_line hsM (hzero a ha) (hzero b hbm)
          (hzero c hc))
  · -- closure: first vertex repeated as the last
    rw [getLast?_append_right _ (List.cons_ne_nil U1 preU.reverse)]
    rw [← hT, hTlast]
    rfl
  · -- all output vertices are input vertices
    intro v hv
    rcases List.mem_append.mp hv with h | h
    · have h2 : v ∈ lower := by
        rw [← List.mem_reverse, hLrev]
        exact h
      exact (hmemS v).mp (hLsub v h2)
    · have h2 : v ∈ upper := by
        have h3 : v ∈ upper.reverse.tail := by
          rw [hT]
          exact h
        exact List.mem_reverse.mp (List.mem_of_mem_tail h3)
      exact (hmemS v).mp (hUsub v h2)
  · -- every input vertex is enclosed
    intro q hq
    have hqS : q ∈ (s :: ss) := (hmemS q).mpr hq
    refine chainLeft_append q _ _ ?_ ?_ ?_
    · rw [← hLrev]
      exact chainLeft_reverse_of_edgesSafe q lower (hedgesL q hqS)
    · have h := chainLeft_reverse_of_edgesSafe q upper (hUedges q hqS)
      rw [hUrev] at h
      exact chainLeft_tail h
    · intro y pre z rest2 hpre hz
      have hy : y = M := hLastIsM y pre hpre
      injection hz with e3 _
      rw [hy, ← e3]
      exact hedge_U1M q hqS

/-- C5 witness: a concrete non-degenerate triangle; the hypothesis is
discharged on it and the theorem applied. -/
theorem convexHull_spec_witness :
    (∃ a ∈ (([(⟨[⟨0, 0⟩, ⟨2, 0⟩, ⟨0, 2⟩]⟩ : Polygon)].map
          Polygon.vertices).flatten),
        ∃ b ∈ (([(⟨[⟨0, 0⟩, ⟨2, 0⟩, ⟨0, 2⟩]⟩ : Polygon)].map
          Polygon.vertices).flatten),
        ∃ c ∈ (([(⟨[⟨0, 0⟩, ⟨2, 0⟩, ⟨0, 2⟩]⟩ : Polygon)].map
          Polygon.vertices).flatten),
        crossProduct a b c ≠ 0) ∧
    (4 ≤ (convexHull [⟨[⟨0, 0⟩, ⟨2, 0⟩, ⟨0, 2⟩]⟩]).vertices.length ∧
    (convexHull [⟨[⟨0, 0⟩, ⟨2, 0⟩, ⟨0, 2⟩]⟩]).vertices.head?
      = (convexHull [⟨[⟨0, 0⟩, ⟨2, 0⟩, ⟨0, 2⟩]⟩]).vertices.getLast? ∧
    (∀ v ∈ (convexHull [⟨[⟨0, 0⟩, ⟨2, 0⟩, ⟨0, 2⟩]⟩]).vertices,
        v ∈ (([(⟨[⟨0, 0⟩, ⟨2, 0⟩, ⟨0, 2⟩]⟩ : Polygon)].map
          Polygon.vertices).flatten)) ∧
    ChainCCW ((convexHull [⟨[⟨0, 0⟩, ⟨2, 0⟩, ⟨0, 2⟩]⟩]).vertices
      ++ (convexHull [⟨[⟨0, 0⟩, ⟨2, 0⟩, ⟨0, 2⟩]⟩]).vertices.tail.take 1) ∧
    (∀ q ∈ (([(⟨[⟨0, 0⟩, ⟨2, 0⟩, ⟨0, 2⟩]⟩ : Polygon)].map
          Polygon.vertices).flatten),
        ChainLeft q (convexHull [⟨[⟨0, 0⟩, ⟨2, 0⟩, ⟨0, 2⟩]⟩]).vertices) ∧
    (∀ q : Cartesian,
        ChainUniq q ((convexHull [⟨[⟨0, 0⟩, ⟨2, 0⟩, ⟨0, 2⟩]⟩]).vertices
          ++ (convexHull
              [⟨[⟨0, 0⟩, ⟨2, 0⟩, ⟨0, 2⟩]⟩]).vertices.tail.take 1))) := by
  have hyp : ∃ a ∈ (([(⟨[⟨0, 0⟩, ⟨2, 0⟩, ⟨0, 2⟩]⟩ : Polygon)].map
        Polygon.vertices).flatten),
      ∃ b ∈ (([(⟨[⟨0, 0⟩, ⟨2, 0⟩, ⟨0, 2⟩]⟩ : Polygon)].map
        Polygon.vertices).flatten),
      ∃ c ∈ (([(⟨[⟨0, 0⟩, ⟨2, 0⟩, ⟨0, 2⟩]⟩ : Polygon)].map
        Polygon.vertices).flatten),
      crossProduct a b c ≠ 0 := by
    refine ⟨⟨0, 0⟩, by simp, ⟨2, 0⟩, by simp, ⟨0, 2⟩, by simp, ?_⟩
    simp only [crossProduct]
    norm_num
  exact ⟨hyp, convexHull_spec [⟨[⟨0, 0⟩, ⟨2, 0⟩, ⟨0, 2⟩]⟩] hyp⟩

/-- C9: every Geometry Kernel operation is deterministic: equal input
values give equal results.  (The no-mutation half of the claim holds by
construction in this model: all inputs are immutable values, matching the
source, which takes inputs by const reference and never writes through
them.) -/
theorem kernel_deterministic
    (Z A B Z' A' B' : Cartesian) (S T S' T' : Seg) (p p' : Polygon)
    (ps ps' : List Polygon)
    (hZ : Z = Z') (hA : A = A') (hB : B = B') (hS : S = S') (hT : T = T')
    (hp : p = p') (hps : ps = ps') :
    crossProduct Z A B = crossProduct Z' A' B' ∧
    linesIntersect S T = linesIntersect S' T' ∧
    getIntersectionPoint S T = getIntersectionPoint S' T' ∧
    polygonArea p = polygonArea p' ∧
    centroid p = centroid p' ∧
    getLineSegments p = getLineSegments p' ∧
    convexHull ps = convexHull ps' := by
  subst hZ hA hB hS hT hp hps
  exact ⟨rfl, rfl, rfl, rfl, rfl, rfl, rfl⟩

/-- Witness for C9 at concrete inputs. -/
theorem kernel_deterministic_witness :
    crossProduct ⟨0,0⟩ ⟨1,0⟩ ⟨0,1⟩ = crossProduct ⟨0,0⟩ ⟨1,0⟩ ⟨0,1⟩ ∧
    linesIntersect (⟨0,0⟩, ⟨1,1⟩) (⟨0,1⟩, ⟨1,0⟩) =
      linesIntersect (⟨0,0⟩, ⟨1,1⟩) (⟨0,1⟩, ⟨1,0⟩) ∧
    getIntersectionPoint (⟨0,0⟩, ⟨1,1⟩) (⟨0,1⟩, ⟨1,0⟩) =
      getIntersectionPoint (⟨0,0⟩, ⟨1,1⟩) (⟨0,1⟩, ⟨1,0⟩) ∧
    polygonArea ⟨[⟨0,0⟩, ⟨1,0⟩, ⟨1,1⟩, ⟨0,1⟩]⟩ =
      polygonArea ⟨[⟨0,0⟩, ⟨1,0⟩, ⟨1,1⟩, ⟨0,1⟩]⟩ ∧
    centroid ⟨[⟨0,0⟩, ⟨1,0⟩, ⟨1,1⟩, ⟨0,1⟩]⟩ =
      centroid ⟨[⟨0,0⟩, ⟨1,0⟩, ⟨1,1⟩, ⟨0,1⟩]⟩ ∧
    getLineSegments ⟨[⟨0,0⟩, ⟨1,0⟩, ⟨1,1⟩, ⟨0,1⟩]⟩ =
      getLineSegments ⟨[⟨0,0⟩, ⟨1,0⟩, ⟨1,1⟩, ⟨0,1⟩]⟩ ∧
    convexHull [⟨[⟨0,0⟩, ⟨1,0⟩, ⟨1,1⟩, ⟨0,1⟩]⟩] =
      convexHull [⟨[⟨0,0⟩, ⟨1,0⟩, ⟨1,1⟩, ⟨0,1⟩]⟩] :=
  kernel_deterministic _ _ _ _ _ _ _ _ _ _ _ _ _ _
    rfl rfl rfl rfl rfl rfl rfl

end sim
